import Mathlib

/-!
# Verification of the arithmetic core of halo2 (pw-02/halo2-old)

Shallow embedding of `src/halo2_proofs/src/arithmetic.rs` and
`src/halo2_proofs/src/gpu/error.rs`, together with proofs about the claims of
the specification: multi-scalar multiplication (MSM), radix-2 FFT, the
parallel work splitter, polynomial evaluation, Kate division, Lagrange
interpolation, and the GPU dispatch error behaviour.

Machine integers (`usize`) are modelled as `ℕ`; slices are modelled as
`List`s; field elements are a generic Mathlib `Field`; curve group elements
are a generic additive commutative group.  Worker-thread counts, which the
source obtains from the runtime (`multicore::current_num_threads()`), appear
as explicit `ℕ` parameters.
-/

namespace Halo2

instance factPrime5 : Fact (Nat.Prime 5) := ⟨by norm_num⟩

instance factPrime7 : Fact (Nat.Prime 7) := ⟨by norm_num⟩

/-! ### Rust `slice::chunks`

`chunksOf c l` splits `l` into contiguous chunks of size `c`; the final chunk
may be shorter.  Rust's `chunks` panics when `c = 0`; every call site below
passes `c ≥ 1`, so the `c = 0` branch (which returns the whole slice) is
unreachable. -/

def chunksOf {α : Type} : ℕ → List α → List (List α)
  | _, [] => []
  | 0, l => [l]
  | c+1, a :: l => ((a :: l).take (c+1)) :: chunksOf (c+1) ((a :: l).drop (c+1))
termination_by _ l => l.length
decreasing_by simp [List.length_drop]; omega

theorem chunksOf_nil {α : Type} (c : ℕ) : chunksOf c ([] : List α) = [] := by
  cases c <;> rw [chunksOf]

theorem chunksOf_of_ne_nil {α : Type} {c : ℕ} (hc : 1 ≤ c) {l : List α} (hl : l ≠ []) :
    chunksOf c l = l.take c :: chunksOf c (l.drop c) := by
  match c, hc, l, hl with
  | c+1, _, a :: l, _ => rw [chunksOf]

theorem chunksOf_flatten {α : Type} {c : ℕ} (hc : 1 ≤ c) :
    ∀ (n : ℕ) (l : List α), l.length ≤ n → (chunksOf c l).flatten = l := by
  intro n
  induction n with
  | zero =>
    intro l hl
    have : l = [] := List.length_eq_zero.mp (Nat.le_zero.mp hl)
    subst this
    simp [chunksOf_nil]
  | succ n ih =>
    intro l hl
    cases l with
    | nil => simp [chunksOf_nil]
    | cons a t =>
      rw [chunksOf_of_ne_nil hc (by simp), List.flatten_cons,
        ih _ (by simp at hl ⊢; omega), List.take_append_drop]

/-! ### Horner evaluation (`arithmetic.rs::eval_polynomial::evaluate`)

`poly.iter().rev().fold(F::ZERO, |acc, coeff| acc * point + coeff)`. -/

def evaluate {F : Type} [Field F] (poly : List F) (point : F) : F :=
  poly.reverse.foldl (fun acc coeff => acc * point + coeff) 0

section Eval

variable {F : Type} [Field F]

theorem evaluate_nil (x : F) : evaluate [] x = 0 := rfl

theorem evaluate_cons (c : F) (t : List F) (x : F) :
    evaluate (c :: t) x = evaluate t x * x + c := by
  simp [evaluate, List.foldl_append]

theorem evaluate_append (a b : List F) (x : F) :
    evaluate (a ++ b) x = evaluate a x + x ^ a.length * evaluate b x := by
  induction a with
  | nil => simp [evaluate_nil]
  | cons c t ih =>
    rw [List.cons_append, evaluate_cons, evaluate_cons, ih, List.length_cons, pow_succ]
    ring

theorem foldl_add_eq_sum (l : List F) (a : F) : l.foldl (· + ·) a = a + l.sum := by
  induction l generalizing a with
  | nil => simp
  | cons x t ih => simp [ih, add_assoc]

end Eval

/-! ### `eval_polynomial` (parallel path)

The source evaluates each `chunk_size`-sized chunk by Horner's rule, weights
it by `point^(chunk_idx * chunk_size)`, stores the results in a vector of
`num_threads` slots initialised to zero (trailing slots stay zero when there
are fewer chunks than threads), and folds the slots with `+`. -/

def eval_polynomial {F : Type} [Field F] (numThreads : ℕ) (poly : List F) (point : F) : F :=
  let n := poly.length
  if n * 2 < numThreads then evaluate poly point
  else
    let chunkSize := (n + numThreads - 1) / numThreads
    let chunkVals := (chunksOf chunkSize poly).enum.map
      (fun p => evaluate p.2 point * point ^ (p.1 * chunkSize))
    let parts := chunkVals ++ List.replicate (numThreads - chunkVals.length) 0
    parts.foldl (· + ·) 0

section EvalPolynomial

variable {F : Type} [Field F]

theorem weighted_chunk_sum {c : ℕ} (hc : 1 ≤ c) (x : F) :
    ∀ (n : ℕ) (l : List F), l.length ≤ n → ∀ (k : ℕ),
      (((chunksOf c l).enumFrom k).map
        (fun p => evaluate p.2 x * x ^ (p.1 * c))).sum = x ^ (k * c) * evaluate l x := by
  intro n
  induction n with
  | zero =>
    intro l hl k
    have : l = [] := List.length_eq_zero.mp (Nat.le_zero.mp hl)
    subst this
    simp [chunksOf_nil, evaluate_nil]
  | succ n ih =>
    intro l hl k
    cases l with
    | nil => simp [chunksOf_nil, evaluate_nil]
    | cons a t =>
      rw [chunksOf_of_ne_nil hc (by simp), List.enumFrom, List.map_cons, List.sum_cons,
        ih _ (by simp at hl ⊢; omega) (k + 1)]
      have hsplit : evaluate (a :: t) x
          = evaluate ((a :: t).take c) x
            + x ^ ((a :: t).take c).length * evaluate ((a :: t).drop c) x := by
        conv_lhs => rw [← List.take_append_drop c (a :: t)]
        exact evaluate_append _ _ x
      rcases le_or_lt (a :: t).length c with hlen | hlen
      · rw [List.drop_eq_nil_of_le hlen] at hsplit ⊢
        simp [chunksOf_nil, evaluate_nil] at hsplit ⊢
        rw [hsplit]; ring
      · rw [List.length_take, Nat.min_eq_left (Nat.le_of_lt hlen)] at hsplit
        rw [hsplit, mul_add, ← mul_assoc, ← pow_add]
        have hkc : k * c + c = (k + 1) * c := by ring
        rw [hkc]
        ring

/-- C8 main lemma: the chunked-and-weighted parallel evaluation path agrees
with plain Horner evaluation. -/
theorem eval_polynomial_eq_evaluate (T : ℕ) (hT : 1 ≤ T) (poly : List F) (x : F) :
    eval_polynomial T poly x = evaluate poly x := by
  unfold eval_polynomial
  by_cases h : poly.length * 2 < T
  · simp [h]
  · simp only [h, if_false]
    have hn : 1 ≤ poly.length := by omega
    have hc : 1 ≤ (poly.length + T - 1) / T := Nat.le_div_iff_mul_le (by omega) |>.mpr (by omega)
    rw [List.foldl_append, foldl_add_eq_sum, foldl_add_eq_sum]
    have hzeros : (List.replicate (T - ((chunksOf ((poly.length + T - 1) / T) poly).enum.map
        (fun p => evaluate p.2 x * x ^ (p.1 * ((poly.length + T - 1) / T)))).length)
        (0 : F)).sum = 0 := by
      simp
    rw [hzeros]
    have hsum := weighted_chunk_sum hc x poly.length poly le_rfl 0
    simp only [List.enum]
    simp only [Nat.zero_mul, pow_zero, one_mul] at hsum
    rw [hsum, zero_add, add_zero]

/-- C8 witness: three coefficients over `ZMod 5`, two worker threads (the
parallel chunked path, since `3 * 2 ≥ 2`). -/
theorem eval_polynomial_eq_evaluate_witness :
    1 ≤ 2 ∧ eval_polynomial 2 [(1 : ZMod 5), 2, 3] 4 = evaluate [(1 : ZMod 5), 2, 3] 4 :=
  ⟨by decide, eval_polynomial_eq_evaluate 2 (by decide) [(1 : ZMod 5), 2, 3] 4⟩

end EvalPolynomial

/-! ### `parallelize` (the parallel work splitter)

The source splits `v` (length `N`) at `split_pos = (N % T) * (N / T + 1)`;
the high part is cut with `chunks_exact_mut(N / T + 1)` (skipped when
`N % T = 0`), the low part with `chunks_exact_mut(N / T)` (skipped when
`N / T = 0`), and each chunk is handed its starting offset.  We model each
spawned chunk by its `(offset, size)` descriptor, in spawn order;
`chunks_exact_mut(c)` on a slice of length `L` yields `L / c` chunks. -/

def parallelize_chunks (N T : ℕ) : List (ℕ × ℕ) :=
  let base_chunk_size := N / T
  let cutoff_chunk_id := N % T
  let split_pos := cutoff_chunk_id * (base_chunk_size + 1)
  (if cutoff_chunk_id ≠ 0 then
    (List.range (split_pos / (base_chunk_size + 1))).map
      (fun chunk_id => (chunk_id * (base_chunk_size + 1), base_chunk_size + 1))
   else []) ++
  (if base_chunk_size ≠ 0 then
    (List.range ((N - split_pos) / base_chunk_size)).map
      (fun chunk_id => (split_pos + chunk_id * base_chunk_size, base_chunk_size))
   else [])

section Parallelize

theorem flatten_uniform_ranges (c : ℕ) : ∀ (m a : ℕ),
    ((List.range m).map (fun k => List.range' (a + k * c) c)).flatten = List.range' a (m * c) := by
  intro m
  induction m with
  | zero => intro a; simp
  | succ m ih =>
    intro a
    rw [List.range_succ, List.map_append, List.flatten_append, ih]
    simp only [List.map_cons, List.map_nil, List.flatten_cons, List.flatten_nil,
      List.append_nil]
    have h := List.range'_append a (m * c) c 1
    simp only [one_mul] at h
    rw [h]
    congr 1
    ring

theorem parallelize_arith (N T : ℕ) (hT : 1 ≤ T) :
    N % T * (N / T + 1) + (T - N % T) * (N / T) = N
    ∧ N - N % T * (N / T + 1) = (T - N % T) * (N / T) := by
  have hqr : T * (N / T) + N % T = N := Nat.div_add_mod N T
  have hr : N % T < T := Nat.mod_lt N (by omega)
  have key : N % T * (N / T + 1) + (T - N % T) * (N / T) = N := by
    have h2 : N % T * (N / T) + (T - N % T) * (N / T) = T * (N / T) := by
      rw [← Nat.add_mul, Nat.add_sub_cancel' (le_of_lt hr)]
    calc N % T * (N / T + 1) + (T - N % T) * (N / T)
        = (N % T * (N / T) + (T - N % T) * (N / T)) + N % T := by ring
      _ = T * (N / T) + N % T := by rw [h2]
      _ = N := hqr
  exact ⟨key, by omega⟩

/-- Closed form when `N < T` (so `N / T = 0`): `N` chunks of size one. -/
theorem parallelize_chunks_small {N T : ℕ} (hT : 1 ≤ T) (hq : N / T = 0) :
    parallelize_chunks N T = (List.range N).map (fun k => (k, 1)) := by
  have hlt : N < T := by
    by_contra hc
    push_neg at hc
    have := Nat.one_le_div_iff (by omega : 0 < T) |>.mpr hc
    omega
  have hmod : N % T = N := Nat.mod_eq_of_lt hlt
  unfold parallelize_chunks
  simp only [hq, hmod]
  by_cases hN : N = 0
  · subst hN; simp
  · rw [if_pos (by simpa using hN), if_neg (by simp)]
    simp

/-- Closed form when `N / T ≥ 1`: `N % T` chunks of size `N / T + 1` followed
by `T - N % T` chunks of size `N / T`. -/
theorem parallelize_chunks_large {N T : ℕ} (hT : 1 ≤ T) (hq : 1 ≤ N / T) :
    parallelize_chunks N T
      = (List.range (N % T)).map (fun k => (k * (N / T + 1), N / T + 1))
        ++ (List.range (T - N % T)).map
            (fun k => (N % T * (N / T + 1) + k * (N / T), N / T)) := by
  obtain ⟨harith, hsub⟩ := parallelize_arith N T hT
  have hhicount : N % T * (N / T + 1) / (N / T + 1) = N % T :=
    Nat.mul_div_cancel _ (by omega)
  have hlocount : (T - N % T) * (N / T) / (N / T) = T - N % T :=
    Nat.mul_div_cancel _ (Nat.pos_of_ne_zero (Nat.one_le_iff_ne_zero.mp hq))
  unfold parallelize_chunks
  simp only [hsub, hhicount, hlocount]
  by_cases hrz : N % T = 0
  · rw [if_neg (by simp [hrz]), if_pos (by simpa using Nat.one_le_iff_ne_zero.mp hq), hrz]
    simp
  · rw [if_pos (by simpa using hrz), if_pos (by simpa using Nat.one_le_iff_ne_zero.mp hq)]

/-- C4: for any slice length `N` and worker count `T ≥ 1`, `parallelize`
produces exactly `min N T` contiguous, ordered, non-overlapping chunks
covering `[0, N)` exactly once (each chunk's offset is its true starting
index), with any two chunk sizes differing by at most one. -/
theorem parallelize_partition (N T : ℕ) (hT : 1 ≤ T) :
    ((parallelize_chunks N T).map (fun p => List.range' p.1 p.2)).flatten = List.range' 0 N
    ∧ (parallelize_chunks N T).length = min N T
    ∧ ∀ p ∈ parallelize_chunks N T, ∀ q ∈ parallelize_chunks N T, p.2 ≤ q.2 + 1 := by
  have hr : N % T < T := Nat.mod_lt N (by omega)
  by_cases hq : N / T = 0
  · have hlt : N < T := by
      by_contra hc
      push_neg at hc
      have := Nat.one_le_div_iff (by omega : 0 < T) |>.mpr hc
      omega
    rw [parallelize_chunks_small hT hq]
    refine ⟨?_, by simp [Nat.min_eq_left (le_of_lt hlt)], ?_⟩
    · rw [List.map_map]
      have h := flatten_uniform_ranges 1 N 0
      simp only [Nat.zero_add, Nat.mul_one] at h
      exact h
    · intro p hp q hquse
      simp only [List.mem_map] at hp hquse
      obtain ⟨kp, _, hkp⟩ := hp
      obtain ⟨kq, _, hkq⟩ := hquse
      rw [← hkp, ← hkq]
      simp
  · have hq1 : 1 ≤ N / T := Nat.one_le_iff_ne_zero.mpr hq
    have hTN : T ≤ N := Nat.one_le_div_iff (by omega : 0 < T) |>.mp hq1
    obtain ⟨harith, _⟩ := parallelize_arith N T hT
    rw [parallelize_chunks_large hT hq1]
    refine ⟨?_, ?_, ?_⟩
    · rw [List.map_append, List.flatten_append, List.map_map, List.map_map]
      have h1 := flatten_uniform_ranges (N / T + 1) (N % T) 0
      simp only [Nat.zero_add] at h1
      have h2 := flatten_uniform_ranges (N / T) (T - N % T) (N % T * (N / T + 1))
      rw [show ((fun p => List.range' p.1 p.2)
          ∘ fun k => (k * (N / T + 1), N / T + 1))
          = fun k => List.range' (k * (N / T + 1)) (N / T + 1) from rfl]
      rw [show ((fun p => List.range' p.1 p.2)
          ∘ fun k => (N % T * (N / T + 1) + k * (N / T), N / T))
          = fun k => List.range' (N % T * (N / T + 1) + k * (N / T)) (N / T) from rfl]
      rw [h1, h2]
      have happ := List.range'_append 0 (N % T * (N / T + 1)) ((T - N % T) * (N / T)) 1
      simp only [one_mul, Nat.zero_add] at happ
      rw [happ, Nat.add_comm ((T - N % T) * (N / T)), harith]
    · simp only [List.length_append, List.length_map, List.length_range]
      omega
    · intro p hp q hquse
      have hsz : ∀ z : ℕ × ℕ, z ∈ (List.range (N % T)).map
            (fun k => (k * (N / T + 1), N / T + 1))
          ++ (List.range (T - N % T)).map
            (fun k => (N % T * (N / T + 1) + k * (N / T), N / T))
          → z.2 = N / T + 1 ∨ z.2 = N / T := by
        intro z hz
        simp only [List.mem_append, List.mem_map] at hz
        rcases hz with ⟨k, _, hk⟩ | ⟨k, _, hk⟩
        · left; rw [← hk]
        · right; rw [← hk]
      rcases hsz p hp with h1 | h1 <;> rcases hsz q hquse with h2 | h2 <;> omega

/-- C4 witness: `N = 5`, `T = 3` (chunks `(0,2) (2,2) (4,1)`). -/
theorem parallelize_partition_witness :
    1 ≤ 3
    ∧ (((parallelize_chunks 5 3).map (fun p => List.range' p.1 p.2)).flatten = List.range' 0 5
    ∧ (parallelize_chunks 5 3).length = min 5 3
    ∧ ∀ p ∈ parallelize_chunks 5 3, ∀ q ∈ parallelize_chunks 5 3, p.2 ≤ q.2 + 1) :=
  ⟨by decide, parallelize_partition 5 3 (by decide)⟩

end Parallelize

/-! ### `kate_division`

The source first negates `b`, then walks `q` (length `len(a) - 1`) and the
reversed coefficients of `a` in lockstep, computing
`lead = r - tmp; q[i] = lead; tmp = lead * b` — modelled by a right fold over
`a.tail` that threads the `(tmp, q-so-far)` state. -/

def kateStep {F : Type} [Field F] (bneg : F) (r : F) (st : F × List F) : F × List F :=
  let lead := r - st.1
  (lead * bneg, lead :: st.2)

def kate_division {F : Type} [Field F] (a : List F) (b : F) : List F :=
  (a.tail.foldr (kateStep (-b)) (0, [])).2

/-- Multiplication of a polynomial `q` by the linear factor `(x - b)`,
written from the specification for the comparison `(x-b) * kate_division(a,b)
== a`: coefficient `i` of the product is `q[i-1] - b * q[i]`. -/
def mulXsub {F : Type} [Field F] (b : F) (q : List F) : List F :=
  List.zipWith (fun u v => u - b * v) (0 :: q) (q ++ [0])

section KateDivision

variable {F : Type} [Field F]

theorem mulXsub_kateFold (b : F) :
    ∀ (t : List F), mulXsub b (t.foldr (kateStep (-b)) ((0 : F), ([] : List F))).2
      = (t.foldr (kateStep (-b)) ((0 : F), ([] : List F))).1 :: t := by
  intro t
  induction t with
  | nil => simp [mulXsub]
  | cons r t ih =>
    rcases hK : t.foldr (kateStep (-b)) ((0 : F), ([] : List F)) with ⟨tmp, q⟩
    rw [hK] at ih
    rw [List.foldr_cons, hK]
    show mulXsub b ((r - tmp) :: q) = (r - tmp) * (-b) :: r :: t
    cases q with
    | nil =>
      simp only [mulXsub, List.nil_append, List.zipWith, List.cons.injEq, and_true] at ih
      obtain ⟨h1, h2⟩ := ih
      subst h1
      subst h2
      simp only [mulXsub, List.cons_append, List.nil_append, List.zipWith, List.cons.injEq,
        and_true]
      exact ⟨by ring, by ring⟩
    | cons q0 q' =>
      simp only [mulXsub, List.cons_append, List.zipWith, List.cons.injEq] at ih ⊢
      obtain ⟨h1, h2⟩ := ih
      subst h1
      exact ⟨by ring, by ring, h2⟩

theorem kateFold_length (b : F) (t : List F) :
    (t.foldr (kateStep (-b)) ((0 : F), ([] : List F))).2.length = t.length := by
  induction t with
  | nil => rfl
  | cons r t ih =>
    rcases hK : t.foldr (kateStep (-b)) ((0 : F), ([] : List F)) with ⟨tmp, q⟩
    rw [hK] at ih
    rw [List.foldr_cons, hK]
    simpa [kateStep] using ih

theorem evaluate_mulXsub (b : F) (q : List F) (x : F) :
    evaluate (mulXsub b q) x = (x - b) * evaluate q x := by
  induction q with
  | nil =>
    simp [mulXsub, evaluate_cons, evaluate_nil]
  | cons c q ih =>
    have hshape : ∃ h rest, mulXsub b q = h :: rest
        ∧ List.zipWith (fun u v => u - b * v) (c :: q) (q ++ [0]) = (h + c) :: rest := by
      cases q with
      | nil =>
        exact ⟨0 - b * 0, [], by simp [mulXsub], by simp [List.zipWith]⟩
      | cons q0 q' =>
        refine ⟨0 - b * q0, List.zipWith (fun u v => u - b * v) (q0 :: q') (q' ++ [0]),
          by simp [mulXsub, List.zipWith],
          by simp only [List.cons_append, List.zipWith, List.cons.injEq]
             exact ⟨by ring, rfl⟩⟩
    obtain ⟨h, rest, hq, hshift⟩ := hshape
    have hLHS : mulXsub b (c :: q) = (0 - b * c) :: (h + c) :: rest := by
      simp only [mulXsub, List.cons_append, List.zipWith]
      exact congrArg (List.cons (0 - b * c)) hshift
    rw [hq, evaluate_cons] at ih
    have hrw : evaluate rest x * x + (h + c) = (evaluate rest x * x + h) + c := by ring
    rw [hLHS, evaluate_cons, evaluate_cons, hrw, ih, evaluate_cons c q x]
    ring

/-- C6: for non-empty `a` with `a(b) = 0`, `kate_division a b` has length
`len(a) - 1` and multiplying it by `(x - b)` reproduces `a`
coefficient-for-coefficient. -/
theorem kate_division_exact (a : List F) (b : F) (ha : a ≠ []) (hz : evaluate a b = 0) :
    mulXsub b (kate_division a b) = a ∧ (kate_division a b).length = a.length - 1 := by
  obtain ⟨a0, t, rfl⟩ : ∃ a0 t, a = a0 :: t := by
    cases a with
    | nil => exact absurd rfl ha
    | cons a0 t => exact ⟨a0, t, rfl⟩
  have hfold := mulXsub_kateFold b t
  have hlen := kateFold_length b t
  have heval : evaluate (mulXsub b (kate_division (a0 :: t) b)) b = 0 := by
    rw [evaluate_mulXsub]
    ring
  rw [kate_division, List.tail_cons] at heval ⊢
  rw [hfold, evaluate_cons] at heval
  rw [evaluate_cons] at hz
  have hhead : (t.foldr (kateStep (-b)) ((0 : F), ([] : List F))).1 = a0 := by
    have h0 : evaluate t b * b + (t.foldr (kateStep (-b)) ((0 : F), ([] : List F))).1 = 0 :=
      heval
    have h1 : evaluate t b * b + a0 = 0 := hz
    linear_combination h0 - h1
  constructor
  · rw [hfold, hhead]
  · simpa using hlen

/-- C6 witness: over `ZMod 7`, `a = x^2 + x + 5 = (x - 1)(x + 2)` vanishes at
`b = 1` and divides exactly. -/
theorem kate_division_exact_witness :
    (([(5 : ZMod 7), 1, 1] : List (ZMod 7)) ≠ [] ∧ evaluate [(5 : ZMod 7), 1, 1] 1 = 0)
    ∧ (mulXsub 1 (kate_division [(5 : ZMod 7), 1, 1] 1) = [(5 : ZMod 7), 1, 1]
      ∧ (kate_division [(5 : ZMod 7), 1, 1] 1).length = [(5 : ZMod 7), 1, 1].length - 1) :=
  ⟨⟨by decide, by decide⟩, kate_division_exact [(5 : ZMod 7), 1, 1] 1 (by decide) (by decide)⟩

end KateDivision

/-! ### GPU dispatch (`best_multiexp`, `multiexp_gpu`, `best_fft`, `gpu_fft`)

The accelerator kernel itself is external (`ec_gpu_gen`); its two fallible
steps — kernel creation (`MultiexpKernel::create` / `FftKernel::create`) and
kernel execution (`kern.multiexp` / `kern.radix_fft_many`) — are modelled as
`Except`-valued inputs.  A Rust computation either produces a value or
panics; `multiexp_gpu` panics on creation failure
(`.expect("Cannot initialize kernel!")`) and otherwise returns the typed
`Result` of the kernel run, `best_multiexp` (under the `cuda`/`opencl`
features) calls `.unwrap()` on that `Result`, and `gpu_fft` calls `.expect`
on both steps. -/

structure EcError where
  msg : String
deriving DecidableEq

inductive RustOutcome (α : Type) : Type
  | ok (val : α)
  | panicked (msg : String)
deriving DecidableEq

def RustOutcome.isPanicked {α : Type} : RustOutcome α → Bool
  | .ok _ => false
  | .panicked _ => true

def multiexp_gpu_model {Pt : Type} (createResult : Except EcError Unit)
    (runResult : Except EcError Pt) : RustOutcome (Except EcError Pt) :=
  match createResult with
  | .error _ => .panicked "Cannot initialize kernel!"
  | .ok _ => .ok runResult

def best_multiexp_gpu_model {Pt : Type} (createResult : Except EcError Unit)
    (runResult : Except EcError Pt) : RustOutcome Pt :=
  match multiexp_gpu_model createResult runResult with
  | .panicked m => .panicked m
  | .ok (.ok v) => .ok v
  | .ok (.error _) => .panicked "called `Result::unwrap()` on an `Err` value"

def gpu_fft_model (createResult : Except EcError Unit)
    (runResult : Except EcError Unit) : RustOutcome Unit :=
  match createResult with
  | .error _ => .panicked "Cannot initialize kernel!"
  | .ok _ =>
    match runResult with
    | .error _ => .panicked "GPU FFT failed!"
    | .ok _ => .ok ()

def best_fft_gpu_model (createResult runResult : Except EcError Unit) : RustOutcome Unit :=
  gpu_fft_model createResult runResult

/-- C9 as stated: on any accelerator failure (unavailable device /
kernel-initialization failure / internal fault) the entry points return a
typed error to the caller and never panic. -/
def gpu_surfaces_typed_errors : Prop :=
  ∀ (createResult : Except EcError Unit) (runM : Except EcError Unit)
    (runF : Except EcError Unit),
    (best_multiexp_gpu_model createResult runM).isPanicked = false
    ∧ (gpu_fft_model createResult runF).isPanicked = false

section GpuDispatch

/-- C9 counterexample: with kernel initialization failing (e.g. no device),
`best_multiexp`'s GPU path and `gpu_fft` both panic instead of returning a
typed error, so the claim as stated is false. -/
theorem gpu_surfaces_typed_errors_false : ¬ gpu_surfaces_typed_errors := by
  intro h
  have hc := (h (Except.error ⟨"no device"⟩) (Except.ok ()) (Except.ok ())).1
  simp [best_multiexp_gpu_model, multiexp_gpu_model, RustOutcome.isPanicked] at hc

/-- C9 amended: `multiexp_gpu` does surface kernel-execution faults as a
typed `Result`, but kernel-initialization failure panics
(`expect("Cannot initialize kernel!")`); `best_multiexp` unwraps the
`Result`, turning even a typed execution error into a panic; and
`gpu_fft`/`best_fft` panic on both initialization and execution failure. -/
theorem gpu_dispatch_behaviour {Pt : Type} (e eInit : EcError)
    (run : Except EcError Pt) (v : Pt) :
    multiexp_gpu_model (Except.ok ()) run = RustOutcome.ok run
    ∧ multiexp_gpu_model (Except.error eInit) run
        = RustOutcome.panicked "Cannot initialize kernel!"
    ∧ best_multiexp_gpu_model (Except.error eInit) run
        = RustOutcome.panicked "Cannot initialize kernel!"
    ∧ best_multiexp_gpu_model (Except.ok ()) (Except.ok v) = RustOutcome.ok v
    ∧ best_multiexp_gpu_model (Except.ok ()) (Except.error e : Except EcError Pt)
        = RustOutcome.panicked "called `Result::unwrap()` on an `Err` value"
    ∧ gpu_fft_model (Except.error eInit) (Except.ok ())
        = RustOutcome.panicked "Cannot initialize kernel!"
    ∧ gpu_fft_model (Except.ok ()) (Except.error e)
        = RustOutcome.panicked "GPU FFT failed!"
    ∧ best_fft_gpu_model (Except.ok ()) (Except.ok ()) = RustOutcome.ok () :=
  ⟨rfl, rfl, rfl, rfl, rfl, rfl, rfl, rfl⟩

end GpuDispatch

/-! ### MSM: scalar representation and digit extraction

A 256-bit scalar is modelled by its natural value `v < 2^256`; `to_repr` is
its 32-byte little-endian representation, byte `i` being `v / 2^(8i) % 256`.
`get_at` reads up to eight consecutive bytes starting at `skip_bits / 8`
(`u64::from_le_bytes`, missing bytes zero), shifts right by the in-byte
offset and keeps `c` bits — exactly the source's `get_at`.  Right shifts are
written as division by a power of two. -/

def reprByte (v i : ℕ) : ℕ := v / 2 ^ (8 * i) % 256

def get_at (segment c : ℕ) (v : ℕ) : ℕ :=
  let skip_bits := segment * c
  let skip_bytes := skip_bits / 8
  if 32 ≤ skip_bytes then 0
  else
    let loaded := ((List.range (min 8 (32 - skip_bytes))).map
      (fun j => reprByte v (skip_bytes + j) * 2 ^ (8 * j))).sum
    loaded / 2 ^ (skip_bits - skip_bytes * 8) % 2 ^ c

section GetAt

theorem mod_mul_split (w a b : ℕ) : w % (a * b) = w % a + w / a % b * a := by
  rw [Nat.mod_mul]
  ring

theorem bytes_sum (w : ℕ) : ∀ (m : ℕ),
    ((List.range m).map (fun j => w / 2 ^ (8 * j) % 256 * 2 ^ (8 * j))).sum = w % 2 ^ (8 * m) := by
  intro m
  induction m with
  | zero => simp [Nat.mod_one]
  | succ m ih =>
    rw [List.range_succ, List.map_append, List.sum_append, ih]
    have hsplit : w % 2 ^ (8 * (m + 1)) = w % 2 ^ (8 * m) + w / 2 ^ (8 * m) % 256 * 2 ^ (8 * m) := by
      have h := mod_mul_split w (2 ^ (8 * m)) 256
      rw [show 2 ^ (8 * m) * 256 = 2 ^ (8 * (m + 1)) by rw [show 8 * (m + 1) = 8 * m + 8 by ring, pow_add]; norm_num] at h
      exact h
    rw [hsplit]
    simp

theorem get_at_lt (segment c v : ℕ) : get_at segment c v < 2 ^ c := by
  unfold get_at
  dsimp only
  split
  · positivity
  · exact Nat.mod_lt _ (by positivity)

theorem get_at_spec (segment c v : ℕ) (hv : v < 2 ^ 256) (hc : c ≤ 57) :
    get_at segment c v = v / 2 ^ (segment * c) % 2 ^ c := by
  unfold get_at
  dsimp only
  set sb := segment * c / 8 with hsb
  set r := segment * c % 8 with hr
  have hdm : 8 * sb + r = segment * c := by rw [hsb, hr]; omega
  have hrlt : r < 8 := Nat.mod_lt _ (by norm_num)
  split
  · -- skip_bytes ≥ 32 : the scalar has run out of bytes, digit is 0
    rename_i hge
    have h256 : 256 ≤ segment * c := by omega
    have : v / 2 ^ (segment * c) = 0 := by
      apply Nat.div_eq_of_lt
      calc v < 2 ^ 256 := hv
        _ ≤ 2 ^ (segment * c) := Nat.pow_le_pow_right (by norm_num) h256
    rw [this]
    simp
  · rename_i hlt
    push_neg at hlt
    have hshift : segment * c - sb * 8 = r := by omega
    rw [hshift]
    -- the loaded u64 equals (v / 2^(8·sb)) % 2^64
    have hbytes : ∀ j, reprByte v (sb + j) = v / 2 ^ (8 * sb) / 2 ^ (8 * j) % 256 := by
      intro j
      rw [reprByte, Nat.div_div_eq_div_mul, ← pow_add]
      rw [show 8 * sb + 8 * j = 8 * (sb + j) by ring]
    have hmap : ((List.range (min 8 (32 - sb))).map
        (fun j => reprByte v (sb + j) * 2 ^ (8 * j))).sum
        = v / 2 ^ (8 * sb) % 2 ^ (8 * min 8 (32 - sb)) := by
      rw [← bytes_sum (v / 2 ^ (8 * sb)) (min 8 (32 - sb))]
      congr 1
      apply List.map_congr_left
      intro j _
      rw [hbytes j]
    have hwlt : v / 2 ^ (8 * sb) < 2 ^ (8 * (32 - sb)) := by
      apply Nat.div_lt_of_lt_mul
      calc v < 2 ^ 256 := hv
        _ ≤ 2 ^ (8 * sb) * 2 ^ (8 * (32 - sb)) := by
            rw [← pow_add]
            apply Nat.pow_le_pow_right (by norm_num)
            omega
    have hload : ((List.range (min 8 (32 - sb))).map
        (fun j => reprByte v (sb + j) * 2 ^ (8 * j))).sum
        = v / 2 ^ (8 * sb) % 2 ^ 64 := by
      rw [hmap]
      rcases le_or_lt 8 (32 - sb) with h8 | h8
      · rw [Nat.min_eq_left h8]
      · rw [Nat.min_eq_right (le_of_lt h8)]
        have hsmall : v / 2 ^ (8 * sb) < 2 ^ (8 * (32 - sb)) := hwlt
        rw [Nat.mod_eq_of_lt hsmall, Nat.mod_eq_of_lt]
        calc v / 2 ^ (8 * sb) < 2 ^ (8 * (32 - sb)) := hsmall
          _ ≤ 2 ^ 64 := Nat.pow_le_pow_right (by norm_num) (by omega)
    rw [hload]
    -- (w % 2^64) / 2^r % 2^c = (w / 2^r) % 2^c because r + c ≤ 64
    have h64 : (2 : ℕ) ^ 64 = 2 ^ r * 2 ^ (64 - r) := by
      rw [← pow_add]
      congr 1
      omega
    rw [h64, Nat.mod_mul_right_div_self]
    rw [Nat.mod_mod_of_dvd _ (pow_dvd_pow 2 (by omega : c ≤ 64 - r))]
    rw [Nat.div_div_eq_div_mul, ← pow_add, hdm]

theorem digit_reconstruct (c : ℕ) (v : ℕ) : ∀ (S : ℕ),
    ∑ s ∈ Finset.range S, v / 2 ^ (s * c) % 2 ^ c * 2 ^ (s * c) = v % 2 ^ (S * c) := by
  intro S
  induction S with
  | zero => simp [Nat.mod_one]
  | succ S ih =>
    rw [Finset.sum_range_succ, ih]
    have h := mod_mul_split v (2 ^ (S * c)) (2 ^ c)
    rw [← pow_add, show S * c + c = (S + 1) * c by ring] at h
    exact h.symm

end GetAt

/-! ### MSM: buckets, `multiexp_serial`, `multiexp_cpu`, `small_multiexp`

The curve group is modelled as an additive commutative group `G`; the affine
and projective representations of the source both denote elements of `G`
(the spec treats the two forms as the same mathematical point), so the
tri-state `Bucket` keeps the source's three constructors with `G`-payloads.
The window width `c` is computed by the source as
`if n < 4 { 1 } else if n < 32 { 3 } else { ln(n).ceil() }` with `f64`
arithmetic; the `f64::ln` branch is abstracted as a parameter `lnCeil`. -/

inductive Bucket (G : Type) : Type
  | none
  | affine (g : G)
  | projective (g : G)

def Bucket.add_assign {G : Type} [AddCommGroup G] : Bucket G → G → Bucket G
  | .none, other => .affine other
  | .affine a, other => .projective (a + other)
  | .projective a, other => .projective (a + other)

def Bucket.add {G : Type} [AddCommGroup G] : Bucket G → G → G
  | .none, other => other
  | .affine a, other => other + a
  | .projective a, other => other + a

/-- The group element a bucket denotes (`None` is the identity). -/
def Bucket.value {G : Type} [AddCommGroup G] : Bucket G → G
  | .none => 0
  | .affine a => a
  | .projective a => a

def accumBuckets {G : Type} [AddCommGroup G] (segment c : ℕ) (pairs : List (ℕ × G))
    (buckets : List (Bucket G)) : List (Bucket G) :=
  pairs.foldl (fun bks p =>
    let coeff := get_at segment c p.1
    if coeff ≠ 0 then bks.set (coeff - 1) ((bks.getD (coeff - 1) Bucket.none).add_assign p.2)
    else bks) buckets

/-- Summation by parts: iterate the buckets from the highest index down,
folding each into `running_sum` and adding `running_sum` into `acc`.  The
state is `(running_sum, acc)`; iterating the reversed list is a right
fold. -/
def foldBuckets {G : Type} [AddCommGroup G] (buckets : List (Bucket G)) (acc : G) : G :=
  (buckets.foldr (fun exp st => ((exp.add st.1), st.2 + exp.add st.1)) ((0 : G), acc)).2

/-- `for _ in 0..c { acc = acc.double() }`. -/
def doubleN {G : Type} [AddCommGroup G] : ℕ → G → G
  | 0, g => g
  | n+1, g => doubleN n (g + g)

def multiexp_serial {G : Type} [AddCommGroup G] (c : ℕ) (coeffs : List ℕ) (bases : List G)
    (acc : G) : G :=
  let segments := 256 / c + 1
  ((List.range segments).reverse).foldl (fun acc seg =>
    foldBuckets
      (accumBuckets seg c (coeffs.zip bases) (List.replicate (2 ^ c - 1) Bucket.none))
      (doubleN c acc)) acc

/-- The source's window-width selection, with the `f64`-computed
`ln(n).ceil()` branch abstracted as `lnCeil`. -/
def windowC (lnCeil : ℕ → ℕ) (n : ℕ) : ℕ :=
  if n < 4 then 1 else if n < 32 then 3 else lnCeil n

def multiexp_cpu {G : Type} [AddCommGroup G] (lnCeil : ℕ → ℕ) (numThreads : ℕ)
    (coeffs : List ℕ) (bases : List G) : G :=
  if numThreads < coeffs.length then
    let chunk := coeffs.length / numThreads
    ((chunksOf chunk coeffs).zip (chunksOf chunk bases)).foldl
      (fun a p => a + multiexp_serial (windowC lnCeil p.2.length) p.1 p.2 0) 0
  else
    multiexp_serial (windowC lnCeil bases.length) coeffs bases 0

/-- The non-windowed double-and-add reference: for each byte (most
significant first) and each bit (most significant first), double the
accumulator, then add every base whose scalar has that bit set. -/
def small_multiexp {G : Type} [AddCommGroup G] (coeffs : List ℕ) (bases : List G) : G :=
  ((List.range 32).reverse).foldl (fun acc byteIdx =>
    ((List.range 8).reverse).foldl (fun acc bitIdx =>
      (coeffs.zip bases).foldl (fun acc p =>
        if reprByte p.1 byteIdx / 2 ^ bitIdx % 2 ≠ 0 then acc + p.2 else acc)
        (acc + acc)) acc) 0

/-- The specified result: `Σ coeffs[i] · bases[i]`. -/
def msmSum {G : Type} [AddCommGroup G] (coeffs : List ℕ) (bases : List G) : G :=
  (List.zipWith (fun v g => v • g) coeffs bases).sum

/-- `Σ_j (j+1) · value(buckets[j])` — what the summation-by-parts loop adds
to the accumulator — in head-recursive form. -/
def bucketWSum {G : Type} [AddCommGroup G] : List (Bucket G) → G
  | [] => 0
  | b :: r => b.value + bucketWSum r + (r.map Bucket.value).sum

section MSMProofs

variable {G : Type} [AddCommGroup G]

theorem foldl_add_map {α : Type} (f : α → G) (l : List α) (a : G) :
    l.foldl (fun acc x => acc + f x) a = a + (l.map f).sum := by
  induction l generalizing a with
  | nil => simp
  | cons x t ih => simp [ih, add_assoc]

theorem foldl_accum_filter {α : Type} (f : α → G) (p : α → Prop) [DecidablePred p]
    (l : List α) (acc : G) :
    l.foldl (fun acc x => if p x then acc + f x else acc) acc
      = acc + ((l.filter (fun x => decide (p x))).map f).sum := by
  induction l generalizing acc with
  | nil => simp
  | cons x t ih =>
    by_cases hx : p x
    · simp [hx, ih, add_assoc]
    · simp [hx, ih]

theorem desc_fold_geom (B : ℕ) (step : G → ℕ → G) (u : ℕ → G)
    (hstep : ∀ acc k, step acc k = B • acc + u k) :
    ∀ (m : ℕ) (acc : G), ((List.range m).reverse).foldl step acc
      = B ^ m • acc + ∑ k ∈ Finset.range m, B ^ k • u k := by
  intro m
  induction m with
  | zero => intro acc; simp
  | succ m ih =>
    intro acc
    rw [List.range_succ, List.reverse_append]
    simp only [List.reverse_cons, List.reverse_nil, List.nil_append, List.singleton_append,
      List.foldl_cons]
    rw [ih (step acc m), hstep, Finset.sum_range_succ, smul_add, smul_smul, ← pow_succ]
    abel

theorem finset_sum_listmap_swap {α β : Type} (s : Finset β) (l : List α) (f : β → α → G) :
    ∑ b ∈ s, (l.map (f b)).sum = (l.map (fun x => ∑ b ∈ s, f b x)).sum := by
  induction l with
  | nil => simp
  | cons x t ih => simp [Finset.sum_add_distrib, ih]

theorem filter_indicator_sum (φ : ℕ → ℕ) (hφ : ∀ v, φ v ≤ 1) (pairs : List (ℕ × G)) :
    ((pairs.filter (fun p => decide (φ p.1 ≠ 0))).map (fun p => p.2)).sum
      = (pairs.map (fun p => φ p.1 • p.2)).sum := by
  induction pairs with
  | nil => simp
  | cons p t ih =>
    rw [List.filter_cons]
    by_cases hb : φ p.1 ≠ 0
    · rw [if_pos (by simpa using hb), List.map_cons, List.sum_cons, List.map_cons,
        List.sum_cons, ih]
      have h1 : φ p.1 = 1 := by have := hφ p.1; omega
      rw [h1, one_smul]
    · push_neg at hb
      rw [if_neg (by simp [hb]), ih, List.map_cons, List.sum_cons, hb, zero_smul, zero_add]

theorem zipWith_eq_map_zip {α β γ : Type} (f : α → β → γ) :
    ∀ (l1 : List α) (l2 : List β),
      List.zipWith f l1 l2 = (l1.zip l2).map (fun p => f p.1 p.2) := by
  intro l1
  induction l1 with
  | nil => intro l2; simp
  | cons x t ih =>
    intro l2
    cases l2 with
    | nil => simp
    | cons y s => simp [List.zip_cons_cons, ih]

theorem Bucket.add_eq (b : Bucket G) (x : G) : b.add x = x + b.value := by
  cases b <;> simp [Bucket.add, Bucket.value]

theorem Bucket.add_assign_value (b : Bucket G) (g : G) :
    (b.add_assign g).value = b.value + g := by
  cases b <;> simp [Bucket.add_assign, Bucket.value]

theorem bucketWSum_cons (b : Bucket G) (r : List (Bucket G)) :
    bucketWSum (b :: r) = b.value + bucketWSum r + (r.map Bucket.value).sum := rfl

theorem foldBuckets_spec (bks : List (Bucket G)) (acc : G) :
    bks.foldr (fun exp st => ((exp.add st.1), st.2 + exp.add st.1)) ((0 : G), acc)
      = ((bks.map Bucket.value).sum, acc + bucketWSum bks) := by
  induction bks with
  | nil => simp [bucketWSum]
  | cons b r ih =>
    rw [List.foldr_cons, ih]
    rw [Prod.mk.injEq]
    constructor
    · rw [Bucket.add_eq, List.map_cons, List.sum_cons]
      abel
    · rw [Bucket.add_eq, bucketWSum_cons]
      abel

theorem foldBuckets_eq (bks : List (Bucket G)) (acc : G) :
    foldBuckets bks acc = acc + bucketWSum bks := by
  rw [foldBuckets, foldBuckets_spec]

theorem doubleN_eq (n : ℕ) (g : G) : doubleN n g = 2 ^ n • g := by
  induction n generalizing g with
  | zero => simp [doubleN]
  | succ n ih =>
    rw [doubleN, ih, ← two_smul ℕ g, smul_smul, ← pow_succ]

theorem sumV_set : ∀ (bks : List (Bucket G)) (j : ℕ) (b : Bucket G), j < bks.length →
    (((bks.set j b).map Bucket.value).sum : G)
      = (bks.map Bucket.value).sum + b.value - (bks.getD j Bucket.none).value := by
  intro bks
  induction bks with
  | nil => intro j b h; simp at h
  | cons x r ih =>
    intro j b h
    cases j with
    | zero =>
      rw [List.set_cons_zero, List.map_cons, List.map_cons, List.sum_cons, List.sum_cons,
        List.getD_cons_zero]
      abel
    | succ j =>
      rw [List.set_cons_succ, List.map_cons, List.map_cons, List.sum_cons, List.sum_cons,
        List.getD_cons_succ, ih j b (by simpa using h)]
      abel

theorem bucketWSum_set : ∀ (bks : List (Bucket G)) (j : ℕ) (b : Bucket G), j < bks.length →
    bucketWSum (bks.set j b)
      = bucketWSum bks + (j + 1) • b.value - (j + 1) • (bks.getD j Bucket.none).value := by
  intro bks
  induction bks with
  | nil => intro j b h; simp at h
  | cons x r ih =>
    intro j b h
    cases j with
    | zero =>
      rw [List.set_cons_zero, bucketWSum_cons, bucketWSum_cons, List.getD_cons_zero]
      simp only [Nat.zero_add, one_smul]
      abel
    | succ j =>
      rw [List.set_cons_succ, bucketWSum_cons, bucketWSum_cons, List.getD_cons_succ,
        ih j b (by simpa using h), sumV_set r j b (by simpa using h)]
      rw [succ_nsmul (b.value) (j + 1), succ_nsmul ((r.getD j Bucket.none).value) (j + 1)]
      abel

theorem accumBuckets_length (segment c : ℕ) :
    ∀ (pairs : List (ℕ × G)) (bks : List (Bucket G)),
      (accumBuckets segment c pairs bks).length = bks.length := by
  intro pairs
  induction pairs with
  | nil => intro bks; rfl
  | cons p ps ih =>
    intro bks
    rw [accumBuckets, List.foldl_cons]
    dsimp only
    split
    · rw [← accumBuckets, ih, List.length_set]
    · rw [← accumBuckets, ih]

theorem bucketWSum_replicate_none (n : ℕ) :
    bucketWSum (List.replicate n (Bucket.none : Bucket G)) = 0 := by
  induction n with
  | zero => rfl
  | succ n ih =>
    rw [List.replicate_succ, bucketWSum_cons, ih]
    simp [Bucket.value, List.map_replicate]

theorem accumBuckets_wsum (segment c : ℕ) :
    ∀ (pairs : List (ℕ × G)) (bks : List (Bucket G)), bks.length = 2 ^ c - 1 →
      bucketWSum (accumBuckets segment c pairs bks)
        = bucketWSum bks + (pairs.map (fun p => get_at segment c p.1 • p.2)).sum := by
  intro pairs
  induction pairs with
  | nil => intro bks _; simp [accumBuckets]
  | cons p ps ih =>
    intro bks hlen
    rw [accumBuckets, List.foldl_cons]
    dsimp only
    rw [List.map_cons, List.sum_cons]
    split
    · rename_i hd
      have hdlt : get_at segment c p.1 < 2 ^ c := get_at_lt segment c p.1
      have hj : get_at segment c p.1 - 1 < bks.length := by omega
      rw [← accumBuckets, ih _ (by rw [List.length_set]; exact hlen)]
      rw [bucketWSum_set bks _ _ hj, Bucket.add_assign_value]
      have hd1 : get_at segment c p.1 - 1 + 1 = get_at segment c p.1 := by omega
      rw [hd1, smul_add]
      abel
    · rename_i hd
      push_neg at hd
      rw [← accumBuckets, ih _ hlen, hd, zero_smul, zero_add]

theorem multiexp_serial_eq (c : ℕ) (hc : 1 ≤ c) (hc57 : c ≤ 57)
    (coeffs : List ℕ) (bases : List G) (hv : ∀ v ∈ coeffs, v < 2 ^ 256) (acc : G) :
    multiexp_serial c coeffs bases acc
      = 2 ^ ((256 / c + 1) * c) • acc + msmSum coeffs bases := by
  have hstep : ∀ (a : G) (seg : ℕ),
      foldBuckets
        (accumBuckets seg c (coeffs.zip bases) (List.replicate (2 ^ c - 1) Bucket.none))
        (doubleN c a)
      = 2 ^ c • a
        + ((coeffs.zip bases).map (fun p => get_at seg c p.1 • p.2)).sum := by
    intro a seg
    rw [foldBuckets_eq, accumBuckets_wsum seg c _ _ (by rw [List.length_replicate]),
      bucketWSum_replicate_none, zero_add, doubleN_eq]
  rw [multiexp_serial]
  rw [desc_fold_geom (2 ^ c) _ _ hstep (256 / c + 1) acc, ← pow_mul]
  congr 1
  · rw [Nat.mul_comm]
  · -- exchange the window sum and the pair sum, then reconstruct each scalar
    have hswap := finset_sum_listmap_swap (Finset.range (256 / c + 1)) (coeffs.zip bases)
      (fun seg p => (2 ^ c) ^ seg • (get_at seg c p.1 • p.2))
    have hsmul : ∀ seg : ℕ,
        (2 ^ c) ^ seg • ((coeffs.zip bases).map (fun p => get_at seg c p.1 • p.2)).sum
        = ((coeffs.zip bases).map (fun p => (2 ^ c) ^ seg • (get_at seg c p.1 • p.2))).sum := by
      intro seg
      rw [List.smul_sum, List.map_map]
      rfl
    calc ∑ seg ∈ Finset.range (256 / c + 1),
          (2 ^ c) ^ seg • ((coeffs.zip bases).map (fun p => get_at seg c p.1 • p.2)).sum
        = ∑ seg ∈ Finset.range (256 / c + 1),
            ((coeffs.zip bases).map (fun p => (2 ^ c) ^ seg • (get_at seg c p.1 • p.2))).sum := by
          exact Finset.sum_congr rfl (fun seg _ => hsmul seg)
      _ = ((coeffs.zip bases).map (fun p =>
            ∑ seg ∈ Finset.range (256 / c + 1), (2 ^ c) ^ seg • (get_at seg c p.1 • p.2))).sum :=
          hswap
      _ = msmSum coeffs bases := by
          rw [msmSum, zipWith_eq_map_zip]
          apply congrArg
          apply List.map_congr_left
          intro p hp
          have hp1 : p.1 ∈ coeffs := (List.of_mem_zip hp).1
          have hv1 : p.1 < 2 ^ 256 := hv p.1 hp1
          have hSc : 256 ≤ (256 / c + 1) * c := by
            have h1 : 256 / c * c + 256 % c = 256 := Nat.div_add_mod' 256 c
            have h2 : 256 % c < c := Nat.mod_lt 256 (by omega)
            rw [Nat.add_mul, Nat.one_mul]
            omega
          have hterm : ∀ seg : ℕ,
              (2 ^ c) ^ seg • (get_at seg c p.1 • p.2)
              = (p.1 / 2 ^ (seg * c) % 2 ^ c * 2 ^ (seg * c)) • p.2 := by
            intro seg
            rw [get_at_spec seg c p.1 hv1 hc57, smul_smul, ← pow_mul, Nat.mul_comm c seg,
              Nat.mul_comm]
          rw [Finset.sum_congr rfl (fun seg _ => hterm seg), ← Finset.sum_smul,
            digit_reconstruct c p.1 (256 / c + 1)]
          rw [Nat.mod_eq_of_lt (lt_of_lt_of_le hv1 (Nat.pow_le_pow_right (by norm_num) hSc))]

theorem small_multiexp_eq (coeffs : List ℕ) (bases : List G)
    (hv : ∀ v ∈ coeffs, v < 2 ^ 256) :
    small_multiexp coeffs bases = msmSum coeffs bases := by
  have hpair : ∀ (acc : G) (b t : ℕ),
      (coeffs.zip bases).foldl (fun acc p =>
        if reprByte p.1 b / 2 ^ t % 2 ≠ 0 then acc + p.2 else acc) (acc + acc)
      = 2 • acc
        + ((coeffs.zip bases).map (fun p => (reprByte p.1 b / 2 ^ t % 2) • p.2)).sum := by
    intro acc b t
    rw [foldl_accum_filter (fun p : ℕ × G => p.2)
      (fun p : ℕ × G => reprByte p.1 b / 2 ^ t % 2 ≠ 0),
      filter_indicator_sum (fun v => reprByte v b / 2 ^ t % 2)
        (fun v => by show reprByte v b / 2 ^ t % 2 ≤ 1; omega), two_smul]
  have hbyte : ∀ (acc : G) (b : ℕ),
      ((List.range 8).reverse).foldl (fun acc t =>
        (coeffs.zip bases).foldl (fun acc p =>
          if reprByte p.1 b / 2 ^ t % 2 ≠ 0 then acc + p.2 else acc) (acc + acc)) acc
      = 2 ^ 8 • acc + ((coeffs.zip bases).map (fun p => reprByte p.1 b • p.2)).sum := by
    intro acc b
    rw [desc_fold_geom 2 _
      (fun t => ((coeffs.zip bases).map (fun p => (reprByte p.1 b / 2 ^ t % 2) • p.2)).sum)
      (fun a t => hpair a b t) 8 acc]
    congr 1
    have hswap := finset_sum_listmap_swap (Finset.range 8) (coeffs.zip bases)
      (fun t p => 2 ^ t • ((reprByte p.1 b / 2 ^ t % 2) • p.2))
    calc ∑ t ∈ Finset.range 8,
          2 ^ t • ((coeffs.zip bases).map (fun p => (reprByte p.1 b / 2 ^ t % 2) • p.2)).sum
        = ∑ t ∈ Finset.range 8,
            ((coeffs.zip bases).map (fun p => 2 ^ t • ((reprByte p.1 b / 2 ^ t % 2) • p.2))).sum := by
          refine Finset.sum_congr rfl (fun t _ => ?_)
          rw [List.smul_sum, List.map_map]
          rfl
      _ = ((coeffs.zip bases).map (fun p =>
            ∑ t ∈ Finset.range 8, 2 ^ t • ((reprByte p.1 b / 2 ^ t % 2) • p.2))).sum := hswap
      _ = ((coeffs.zip bases).map (fun p => reprByte p.1 b • p.2)).sum := by
          apply congrArg
          apply List.map_congr_left
          intro p _
          have hterm : ∀ t : ℕ, 2 ^ t • ((reprByte p.1 b / 2 ^ t % 2) • p.2)
              = (reprByte p.1 b / 2 ^ (t * 1) % 2 ^ 1 * 2 ^ (t * 1)) • p.2 := by
            intro t
            rw [smul_smul, Nat.mul_one, pow_one, Nat.mul_comm]
          rw [Finset.sum_congr rfl (fun t _ => hterm t), ← Finset.sum_smul,
            digit_reconstruct 1 (reprByte p.1 b) 8]
          rw [Nat.mul_one, Nat.mod_eq_of_lt]
          calc reprByte p.1 b < 256 := Nat.mod_lt _ (by norm_num)
            _ ≤ 2 ^ 8 := by norm_num
  rw [small_multiexp]
  rw [desc_fold_geom (2 ^ 8) _
    (fun b => ((coeffs.zip bases).map (fun p => reprByte p.1 b • p.2)).sum)
    (fun a b => hbyte a b) 32 0, smul_zero, zero_add]
  have hswap := finset_sum_listmap_swap (Finset.range 32) (coeffs.zip bases)
    (fun b p => (2 ^ 8) ^ b • (reprByte p.1 b • p.2))
  calc ∑ b ∈ Finset.range 32,
        (2 ^ 8) ^ b • ((coeffs.zip bases).map (fun p => reprByte p.1 b • p.2)).sum
      = ∑ b ∈ Finset.range 32,
          ((coeffs.zip bases).map (fun p => (2 ^ 8) ^ b • (reprByte p.1 b • p.2))).sum := by
        refine Finset.sum_congr rfl (fun b _ => ?_)
        rw [List.smul_sum, List.map_map]
        rfl
    _ = ((coeffs.zip bases).map (fun p =>
          ∑ b ∈ Finset.range 32, (2 ^ 8) ^ b • (reprByte p.1 b • p.2))).sum := hswap
    _ = msmSum coeffs bases := by
        rw [msmSum, zipWith_eq_map_zip]
        apply congrArg
        apply List.map_congr_left
        intro p hp
        have hv1 : p.1 < 2 ^ 256 := hv p.1 (List.of_mem_zip hp).1
        have hterm : ∀ b : ℕ, (2 ^ 8) ^ b • (reprByte p.1 b • p.2)
            = (p.1 / 2 ^ (b * 8) % 2 ^ 8 * 2 ^ (b * 8)) • p.2 := by
          intro b
          rw [smul_smul, reprByte, ← pow_mul, Nat.mul_comm 8 b, Nat.mul_comm]
          norm_num
        rw [Finset.sum_congr rfl (fun b _ => hterm b), ← Finset.sum_smul,
          digit_reconstruct 8 p.1 32]
        rw [show (32 * 8 : ℕ) = 256 by norm_num, Nat.mod_eq_of_lt hv1]

theorem windowC_bounds (lnCeil : ℕ → ℕ)
    (hln : ∀ n, 32 ≤ n → 1 ≤ lnCeil n ∧ lnCeil n ≤ 57) (n : ℕ) :
    1 ≤ windowC lnCeil n ∧ windowC lnCeil n ≤ 57 := by
  unfold windowC
  split_ifs with h1 h2
  · exact ⟨le_rfl, by norm_num⟩
  · exact ⟨by norm_num, by norm_num⟩
  · exact hln n (by omega)

theorem mem_of_mem_chunksOf {α : Type} {k : ℕ} (hk : 1 ≤ k) {l ch : List α}
    (hch : ch ∈ chunksOf k l) {x : α} (hx : x ∈ ch) : x ∈ l := by
  have hfl := chunksOf_flatten hk l.length l le_rfl
  rw [← hfl]
  exact List.mem_flatten.mpr ⟨ch, hch, hx⟩

theorem msmSum_chunksOf {k : ℕ} (hk : 1 ≤ k) :
    ∀ (n : ℕ) (a : List ℕ) (b : List G), a.length ≤ n → a.length = b.length →
      (((chunksOf k a).zip (chunksOf k b)).map (fun p => msmSum p.1 p.2)).sum
        = msmSum a b := by
  intro n
  induction n with
  | zero =>
    intro a b ha hab
    have ha0 : a = [] := List.length_eq_zero.mp (Nat.le_zero.mp ha)
    subst ha0
    simp [chunksOf_nil, msmSum]
  | succ n ih =>
    intro a b ha hab
    cases a with
    | nil => simp [chunksOf_nil, msmSum]
    | cons x xs =>
      cases b with
      | nil => simp at hab
      | cons y ys =>
        rw [chunksOf_of_ne_nil hk (by simp), @chunksOf_of_ne_nil _ _ hk (y :: ys) (by simp),
          List.zip_cons_cons, List.map_cons, List.sum_cons,
          ih _ _ (by simp at ha ⊢; omega) (by simp [List.length_drop] at hab ⊢; omega)]
        show msmSum ((x :: xs).take k) ((y :: ys).take k)
            + msmSum ((x :: xs).drop k) ((y :: ys).drop k) = msmSum (x :: xs) (y :: ys)
        rw [msmSum, msmSum, msmSum, ← List.take_zipWith, ← List.drop_zipWith,
          List.sum_take_add_sum_drop]

/-- C1: for equal-length inputs of 256-bit scalars and any worker-thread
count, `multiexp_cpu` returns exactly `Σ coeffs[i] · bases[i]`, the value of
the non-windowed double-and-add reference `small_multiexp`.  The window
width's `f64::ln` branch is abstracted by `lnCeil`, constrained to the range
in which the digit extractor is exact (the source's values lie in `[1, 23]`
for any slice that fits in memory). -/
theorem multiexp_cpu_correct (lnCeil : ℕ → ℕ)
    (hln : ∀ n, 32 ≤ n → 1 ≤ lnCeil n ∧ lnCeil n ≤ 57)
    (T : ℕ) (hT : 1 ≤ T) (coeffs : List ℕ) (bases : List G)
    (hlen : coeffs.length = bases.length) (hv : ∀ v ∈ coeffs, v < 2 ^ 256) :
    multiexp_cpu lnCeil T coeffs bases = msmSum coeffs bases
    ∧ multiexp_cpu lnCeil T coeffs bases = small_multiexp coeffs bases := by
  have hsmall := small_multiexp_eq coeffs bases hv
  have hmain : multiexp_cpu lnCeil T coeffs bases = msmSum coeffs bases := by
    unfold multiexp_cpu
    split
    · rename_i hgt
      have hk : 1 ≤ coeffs.length / T := Nat.one_le_div_iff (by omega) |>.mpr (by omega)
      have hext : ∀ (a : G),
          ∀ p ∈ (chunksOf (coeffs.length / T) coeffs).zip (chunksOf (coeffs.length / T) bases),
            a + multiexp_serial (windowC lnCeil p.2.length) p.1 p.2 0
              = a + msmSum p.1 p.2 := by
        intro a p hp
        have hmem := List.of_mem_zip hp
        have hvchunk : ∀ v ∈ p.1, v < 2 ^ 256 :=
          fun v hvmem => hv v (mem_of_mem_chunksOf hk hmem.1 hvmem)
        obtain ⟨hw1, hw57⟩ := windowC_bounds lnCeil hln p.2.length
        rw [multiexp_serial_eq _ hw1 hw57 p.1 p.2 hvchunk 0, smul_zero, zero_add]
      rw [List.foldl_ext _ _ 0 hext, foldl_add_map (fun p : List ℕ × List G => msmSum p.1 p.2),
        zero_add, msmSum_chunksOf hk coeffs.length coeffs bases le_rfl hlen]
    · rename_i hle
      obtain ⟨hw1, hw57⟩ := windowC_bounds lnCeil hln bases.length
      rw [multiexp_serial_eq _ hw1 hw57 coeffs bases hv 0, smul_zero, zero_add]
  exact ⟨hmain, by rw [hmain, hsmall]⟩

/-- C1 witness: two scalars and two integer points, one worker thread (the
chunked path), with a window-width stand-in satisfying the bounds. -/
theorem multiexp_cpu_correct_witness :
    ((∀ n, 32 ≤ n → 1 ≤ (fun _ : ℕ => 5) n ∧ (fun _ : ℕ => 5) n ≤ 57)
      ∧ 1 ≤ 1
      ∧ ([3, 5] : List ℕ).length = ([(7 : ℤ), 11] : List ℤ).length
      ∧ ∀ v ∈ ([3, 5] : List ℕ), v < 2 ^ 256)
    ∧ (multiexp_cpu (fun _ => 5) 1 [3, 5] [(7 : ℤ), 11] = msmSum [3, 5] [(7 : ℤ), 11]
      ∧ multiexp_cpu (fun _ => 5) 1 [3, 5] [(7 : ℤ), 11]
          = small_multiexp [3, 5] [(7 : ℤ), 11]) :=
  ⟨⟨fun n _ => ⟨by norm_num, by norm_num⟩, le_rfl, rfl, by decide⟩,
    multiexp_cpu_correct (fun _ => 5) (fun n _ => ⟨by norm_num, by norm_num⟩) 1 le_rfl
      [3, 5] [(7 : ℤ), 11] rfl (by decide)⟩

end MSMProofs

/-! ### FFT: bit reversal, butterflies, `cpu_fft`

`cpu_fft` bit-reverses the input in place, precomputes the `n/2` twiddle
factors, then runs either the flat iterative butterfly passes
(`log_n ≤ log2(threads)`) or `recursive_butterfly_arithmetic`.  The element
type `G` carries a scalar action of the field `F` (`t *= &twiddles[..]` is
`ScalarMulOwned`); the recursive function is written by recursion on
`log2 n`, since the source recurses on the length `n = 2^k`, halving it and
bottoming out at `n = 2`. -/

def bitrevAux : ℕ → ℕ → ℕ → ℕ
  | 0, _, r => r
  | l+1, n, r => bitrevAux l (n / 2) (2 * r + n % 2)

/-- The source's `bitreverse(n, l)`: reverse the low `l` bits of `n`. -/
def bitreverse (n l : ℕ) : ℕ := bitrevAux l n 0

/-- One iteration of the source's swap loop: swap `a[k]` and
`a[rk] (rk = bitreverse(k, log_n))` when `k < rk`. -/
def swapStep {G : Type} [AddCommGroup G] (logn : ℕ) (a : List G) (k : ℕ) : List G :=
  let rk := bitreverse k logn
  if k < rk then (a.set k (a.getD rk 0)).set rk (a.getD k 0) else a

/-- The source's swap loop: `swapStep` for every `k in 0..n`. -/
def swapPass {G : Type} [AddCommGroup G] (logn : ℕ) (a : List G) : List G :=
  (List.range a.length).foldl (swapStep logn) a

/-- Twiddle table: `n/2` powers of `omega`; the source's scan yields
`omega^i` at index `i`. -/
def twiddles {F : Type} [Field F] (n : ℕ) (omega : F) : List F :=
  (List.range (n / 2)).map (fun i => omega ^ i)

/-- One butterfly combine of two half-chunks with twiddle stride `tchunk`:
position `0` uses twiddle one (no multiplication in the source), position
`i ≥ 1` multiplies by `twiddles[i * tchunk]`; `left[i]` becomes
`left[i] + t` and `right[i]` becomes `left[i] - t`. -/
def combine {F G : Type} [Field F] [AddCommGroup G] [Module F G]
    (tw : List F) (tchunk : ℕ) (l r : List G) : List G :=
  let ts := r.enum.map (fun p => if p.1 = 0 then p.2 else tw.getD (p.1 * tchunk) 0 • p.2)
  (List.zipWith (· + ·) l ts) ++ (List.zipWith (· - ·) l ts)

/-- One round of the flat iterative path: split the array into chunks of the
current size and butterfly-combine each chunk's halves. -/
def applyPass {F G : Type} [Field F] [AddCommGroup G] [Module F G]
    (tw : List F) (chunk tchunk : ℕ) (a : List G) : List G :=
  ((chunksOf chunk a).map
    (fun co => combine tw tchunk (co.take (chunk / 2)) (co.drop (chunk / 2)))).flatten

/-- The flat iterative butterfly network: `rounds` rounds, the chunk size
doubling and the twiddle stride halving after each round (the source starts
with `chunk = 2`, `twiddle_chunk = n / 2`). -/
def iterPasses {F G : Type} [Field F] [AddCommGroup G] [Module F G]
    (tw : List F) : ℕ → ℕ → ℕ → List G → List G
  | 0, _, _, a => a
  | rounds+1, chunk, tchunk, a =>
      iterPasses tw rounds (chunk * 2) (tchunk / 2) (applyPass tw chunk tchunk a)

/-- `recursive_butterfly_arithmetic`: `n = 2` is the base butterfly,
otherwise recurse into the two halves with doubled twiddle stride and
combine. -/
def recursive_butterfly {F G : Type} [Field F] [AddCommGroup G] [Module F G]
    (tw : List F) : ℕ → ℕ → List G → List G
  | 0, _, a => a
  | 1, _, a => [a.getD 0 0 + a.getD 1 0, a.getD 0 0 - a.getD 1 0]
  | k+2, tchunk, a =>
      combine tw tchunk
        (recursive_butterfly tw (k+1) (tchunk * 2) (a.take (a.length / 2)))
        (recursive_butterfly tw (k+1) (tchunk * 2) (a.drop (a.length / 2)))

def cpu_fft {F G : Type} [Field F] [AddCommGroup G] [Module F G]
    (logThreads : ℕ) (omega : F) (logn : ℕ) (a : List G) : List G :=
  let n := a.length
  let b := swapPass logn a
  let tw := twiddles n omega
  if logn ≤ logThreads then iterPasses tw logn 2 (n / 2) b
  else recursive_butterfly tw logn 1 b

/-- The discrete Fourier transform at root `ρ`: entry `i` is
`Σ_j ρ^(i·j) • a[j]` — the evaluations of the polynomial with coefficients
`a` at the powers of `ρ`. -/
def dft {F G : Type} [Field F] [AddCommGroup G] [Module F G] (ρ : F) (a : List G) : List G :=
  (List.range a.length).map (fun i => ∑ j ∈ Finset.range a.length, ρ ^ (i * j) • a.getD j 0)

section FFTPaths

variable {F G : Type} [Field F] [AddCommGroup G] [Module F G]

theorem combine_length (tw : List F) (tchunk : ℕ) (l r : List G) (h : l.length = r.length) :
    (combine tw tchunk l r).length = l.length + r.length := by
  simp [combine, h]

theorem chunksOf_singleton_chunk {α : Type} {c : ℕ} (hc : 1 ≤ c) {a : List α}
    (ha : a.length = c) (hne : a ≠ []) : chunksOf c a = [a] := by
  rw [chunksOf_of_ne_nil hc hne, ← ha, List.take_length, List.drop_length, chunksOf_nil]

theorem applyPass_singleton (tw : List F) (c tchunk : ℕ) (hc : 1 ≤ c) (a : List G)
    (ha : a.length = c) (hne : a ≠ []) :
    applyPass tw c tchunk a = combine tw tchunk (a.take (c / 2)) (a.drop (c / 2)) := by
  rw [applyPass, chunksOf_singleton_chunk hc ha hne]
  simp

theorem applyPass_nil (tw : List F) (c tchunk : ℕ) :
    applyPass tw c tchunk ([] : List G) = [] := by
  simp [applyPass, chunksOf_nil]

theorem applyPass_cons_chunk (tw : List F) {c : ℕ} (tchunk : ℕ) (hc : 1 ≤ c) {a : List G}
    (ha : a ≠ []) :
    applyPass tw c tchunk a
      = combine tw tchunk ((a.take c).take (c / 2)) ((a.take c).drop (c / 2))
        ++ applyPass tw c tchunk (a.drop c) := by
  rw [applyPass, chunksOf_of_ne_nil hc ha, List.map_cons, List.flatten_cons, ← applyPass]

theorem drop_dvd_length {α : Type} {c : ℕ} {x : List α} (hdvd : c ∣ x.length) :
    c ∣ (x.drop c).length := by
  rcases hdvd with ⟨m, hm⟩
  rcases Nat.eq_zero_or_pos m with hm0 | hm1
  · subst hm0
    simp at hm
    simp [hm]
  · refine ⟨m - 1, ?_⟩
    rw [List.length_drop, hm, Nat.mul_sub_one]

theorem applyPass_append (tw : List F) (c tchunk : ℕ) (hc : 1 ≤ c) :
    ∀ (n : ℕ) (x y : List G), x.length ≤ n → c ∣ x.length →
      applyPass tw c tchunk (x ++ y) = applyPass tw c tchunk x ++ applyPass tw c tchunk y := by
  intro n
  induction n with
  | zero =>
    intro x y hx _
    have : x = [] := List.length_eq_zero.mp (Nat.le_zero.mp hx)
    subst this
    simp [applyPass_nil]
  | succ n ih =>
    intro x y hx hdvd
    by_cases hxe : x = []
    · subst hxe; simp [applyPass_nil]
    · have hcx : c ≤ x.length := Nat.le_of_dvd (List.length_pos.mpr hxe) hdvd
      have hx1 : 1 ≤ x.length := List.length_pos.mpr hxe
      have hxy : x ++ y ≠ [] := by simp [hxe]
      rw [applyPass_cons_chunk tw tchunk hc hxy, applyPass_cons_chunk tw tchunk hc hxe,
        List.take_append_of_le_length hcx, List.drop_append_of_le_length hcx,
        ih (x.drop c) y (by rw [List.length_drop]; omega) (drop_dvd_length hdvd),
        List.append_assoc]

theorem applyPass_length (tw : List F) (e tchunk : ℕ) :
    ∀ (n : ℕ) (a : List G), a.length ≤ n → 2 ^ (e + 1) ∣ a.length →
      (applyPass tw (2 ^ (e + 1)) tchunk a).length = a.length := by
  intro n
  induction n with
  | zero =>
    intro a ha _
    have : a = [] := List.length_eq_zero.mp (Nat.le_zero.mp ha)
    subst this
    simp [applyPass_nil]
  | succ n ih =>
    intro a ha hdvd
    by_cases hae : a = []
    · subst hae; simp [applyPass_nil]
    · have hc1 : 1 ≤ 2 ^ (e + 1) := Nat.one_le_two_pow
      have hca : 2 ^ (e + 1) ≤ a.length := Nat.le_of_dvd (List.length_pos.mpr hae) hdvd
      have ha1 : 1 ≤ a.length := List.length_pos.mpr hae
      have h2half : 2 ^ (e + 1) / 2 = 2 ^ e := by
        rw [pow_succ, Nat.mul_div_cancel _ (by norm_num)]
      have h2e : 2 ^ e ≤ 2 ^ (e + 1) := Nat.pow_le_pow_right (by norm_num) (by omega)
      have htake : (a.take (2 ^ (e + 1))).length = 2 ^ (e + 1) := by
        rw [List.length_take]
        omega
      rw [applyPass_cons_chunk tw tchunk hc1 hae, List.length_append,
        ih (a.drop (2 ^ (e + 1))) (by rw [List.length_drop]; omega)
          (drop_dvd_length hdvd),
        combine_length]
      · rw [List.length_take, List.length_drop, List.length_drop, htake, h2half,
          Nat.min_eq_left h2e]
        omega
      · rw [List.length_take, List.length_drop, htake, h2half, Nat.min_eq_left h2e]
        omega

theorem iterPasses_succ_last (tw : List F) :
    ∀ (r : ℕ) (c tc : ℕ) (a : List G),
      iterPasses tw (r + 1) c tc a
        = applyPass tw (c * 2 ^ r) (tc / 2 ^ r) (iterPasses tw r c tc a) := by
  intro r
  induction r with
  | zero =>
    intro c tc a
    rw [iterPasses, iterPasses, iterPasses]
    simp
  | succ r ih =>
    intro c tc a
    rw [show r + 1 + 1 = (r + 1) + 1 from rfl, iterPasses,
      ih (c * 2) (tc / 2) (applyPass tw c tc a), ← iterPasses]
    have h1 : c * 2 * 2 ^ r = c * 2 ^ (r + 1) := by ring
    have h2 : tc / 2 / 2 ^ r = tc / 2 ^ (r + 1) := by
      rw [Nat.div_div_eq_div_mul, pow_succ, Nat.mul_comm 2 (2 ^ r)]
    rw [h1, h2]

theorem recursive_butterfly_length (tw : List F) :
    ∀ (k : ℕ) (tc : ℕ) (a : List G), a.length = 2 ^ k →
      (recursive_butterfly tw k tc a).length = 2 ^ k := by
  intro k
  induction k with
  | zero => intro tc a ha; rw [recursive_butterfly]; exact ha
  | succ k ih =>
    intro tc a ha
    cases k with
    | zero => rw [recursive_butterfly]; rfl
    | succ k =>
      rw [recursive_butterfly, combine_length]
      · rw [ih _ _ (by rw [List.length_take, ha]; simp [pow_succ])]
        rw [ih _ _ (by rw [List.length_drop, ha]; simp [pow_succ]; omega)]
        rw [← Nat.two_mul, ← pow_succ']
      · rw [ih _ _ (by rw [List.length_take, ha]; simp [pow_succ])]
        rw [ih _ _ (by rw [List.length_drop, ha]; simp [pow_succ]; omega)]

theorem iterPasses_append (tw : List F) :
    ∀ (r e tc : ℕ) (x y : List G),
      2 ^ (e + r) ∣ x.length → 2 ^ (e + r) ∣ y.length →
      iterPasses tw r (2 ^ (e + 1)) tc (x ++ y)
        = iterPasses tw r (2 ^ (e + 1)) tc x ++ iterPasses tw r (2 ^ (e + 1)) tc y := by
  intro r
  induction r with
  | zero => intro e tc x y _ _; rw [iterPasses, iterPasses, iterPasses]
  | succ r ih =>
    intro e tc x y hx hy
    have hxd : 2 ^ (e + 1) ∣ x.length :=
      dvd_trans (pow_dvd_pow 2 (by omega : e + 1 ≤ e + (r + 1))) hx
    have hyd : 2 ^ (e + 1) ∣ y.length :=
      dvd_trans (pow_dvd_pow 2 (by omega : e + 1 ≤ e + (r + 1))) hy
    rw [iterPasses, applyPass_append tw _ tc Nat.one_le_two_pow x.length x y le_rfl hxd]
    have hpx : (applyPass tw (2 ^ (e + 1)) tc x).length = x.length :=
      applyPass_length tw e tc x.length x le_rfl hxd
    have hpy : (applyPass tw (2 ^ (e + 1)) tc y).length = y.length :=
      applyPass_length tw e tc y.length y le_rfl hyd
    have h2 : (2 : ℕ) ^ (e + 1) * 2 = 2 ^ (e + 2) := by ring
    rw [h2, ih (e + 1) (tc / 2) _ _ (by rw [hpx]; exact (by rw [show e + 1 + r = e + (r + 1) by omega]; exact hx))
      (by rw [hpy]; exact (by rw [show e + 1 + r = e + (r + 1) by omega]; exact hy))]
    rw [iterPasses, h2, iterPasses, h2]

theorem iterPasses_append_two (tw : List F) (r tc : ℕ) (x y : List G)
    (hx : 2 ^ r ∣ x.length) (hy : 2 ^ r ∣ y.length) :
    iterPasses tw r 2 tc (x ++ y) = iterPasses tw r 2 tc x ++ iterPasses tw r 2 tc y := by
  have h := iterPasses_append tw r 0 tc x y (by simpa using hx) (by simpa using hy)
  norm_num at h
  exact h

theorem iter_eq_rec (tw : List F) :
    ∀ (k : ℕ) (tc : ℕ) (a : List G), 1 ≤ k → a.length = 2 ^ k →
      iterPasses tw k 2 (2 ^ (k - 1) * tc) a = recursive_butterfly tw k tc a := by
  intro k
  induction k with
  | zero => intro tc a hk; omega
  | succ k ih =>
    intro tc a _ ha
    cases k with
    | zero =>
      -- n = 2 : one pass over the single chunk [a0, a1]
      obtain ⟨a0, a1, rfl⟩ := List.length_eq_two.mp ha
      simp only [Nat.add_sub_cancel, pow_zero, Nat.one_mul]
      rw [iterPasses, iterPasses,
        applyPass_singleton tw 2 tc (by norm_num) [a0, a1] rfl (by simp),
        recursive_butterfly]
      rfl
    | succ k =>
      rw [show k + 1 + 1 = k + 2 from rfl] at ha ⊢
      rw [show k + 2 - 1 = k + 1 from rfl]
      have hk1 : 1 ≤ k + 1 := by omega
      have hhalf : 2 ^ (k + 1) ≤ a.length := by
        rw [ha]
        exact Nat.pow_le_pow_right (by norm_num) (by omega)
      have htx : (a.take (2 ^ (k + 1))).length = 2 ^ (k + 1) := by
        rw [List.length_take]
        omega
      have hdx : (a.drop (2 ^ (k + 1))).length = 2 ^ (k + 1) := by
        rw [List.length_drop, ha, pow_succ]
        omega
      have hsplit : a = a.take (2 ^ (k + 1)) ++ a.drop (2 ^ (k + 1)) :=
        (List.take_append_drop _ a).symm
      -- unroll the last round, distribute the first k+1 rounds over the halves
      rw [show k + 2 = (k + 1) + 1 from rfl,
        iterPasses_succ_last tw (k + 1) 2 (2 ^ (k + 1) * tc) a]
      have hstride : 2 ^ (k + 1) * tc / 2 ^ (k + 1) = tc :=
        Nat.mul_div_cancel_left tc (by positivity)
      have hchunk : (2 : ℕ) * 2 ^ (k + 1) = 2 ^ (k + 2) := by ring
      rw [hstride, hchunk]
      conv_lhs => rw [hsplit]
      rw [iterPasses_append_two tw (k + 1) (2 ^ (k + 1) * tc) _ _
        (by rw [htx]) (by rw [hdx])]
      have hrw : ∀ b : List G, b.length = 2 ^ (k + 1) →
          iterPasses tw (k + 1) 2 (2 ^ (k + 1) * tc) b
            = recursive_butterfly tw (k + 1) (tc * 2) b := by
        intro b hb
        have h := ih (tc * 2) b hk1 hb
        simp only [Nat.add_sub_cancel] at h
        have harg : 2 ^ (k + 1) * tc = 2 ^ k * (tc * 2) := by ring
        rw [harg, h]
      rw [hrw _ htx, hrw _ hdx]
      have hlt : (recursive_butterfly tw (k + 1) (tc * 2) (a.take (2 ^ (k + 1)))).length
          = 2 ^ (k + 1) := recursive_butterfly_length tw (k + 1) _ _ htx
      have hld : (recursive_butterfly tw (k + 1) (tc * 2) (a.drop (2 ^ (k + 1)))).length
          = 2 ^ (k + 1) := recursive_butterfly_length tw (k + 1) _ _ hdx
      have hlen2 : (recursive_butterfly tw (k + 1) (tc * 2) (a.take (2 ^ (k + 1)))
          ++ recursive_butterfly tw (k + 1) (tc * 2) (a.drop (2 ^ (k + 1)))).length
          = 2 ^ (k + 2) := by
        rw [List.length_append, hlt, hld, ← Nat.two_mul, ← pow_succ']
      have hnil2 : recursive_butterfly tw (k + 1) (tc * 2) (a.take (2 ^ (k + 1)))
          ++ recursive_butterfly tw (k + 1) (tc * 2) (a.drop (2 ^ (k + 1))) ≠ [] := by
        intro hnil
        rw [hnil] at hlen2
        simp only [List.length_nil] at hlen2
        have hp : 0 < 2 ^ (k + 2) := by positivity
        omega
      rw [applyPass_singleton tw (2 ^ (k + 2)) tc Nat.one_le_two_pow _ hlen2 hnil2]
      have hhalf2 : 2 ^ (k + 2) / 2 = 2 ^ (k + 1) := by
        rw [pow_succ, Nat.mul_div_cancel _ (by norm_num)]
      rw [hhalf2, List.take_left' hlt, List.drop_left' hlt]
      rw [recursive_butterfly, ha, hhalf2]

theorem swapStep_length (logn : ℕ) (b : List G) (k : ℕ) :
    (swapStep logn b k).length = b.length := by
  rw [swapStep]
  split
  · rw [List.length_set, List.length_set]
  · rfl

theorem foldl_swap_length (logn : ℕ) :
    ∀ (ks : List ℕ) (b : List G), (ks.foldl (swapStep logn) b).length = b.length := by
  intro ks
  induction ks with
  | nil => intro b; rfl
  | cons k t ih =>
    intro b
    rw [List.foldl_cons, ih, swapStep_length]

theorem swapPass_length (logn : ℕ) (a : List G) : (swapPass logn a).length = a.length := by
  rw [swapPass, foldl_swap_length]

/-- C3: the flat iterative butterfly network and
`recursive_butterfly_arithmetic` compute the same function on any
power-of-two input, so the `log_n ≤ log2(threads)` threshold never changes
`cpu_fft`'s result. -/
theorem fft_path_equivalence (omega : F) (logn : ℕ) (hk : 1 ≤ logn) (a : List G)
    (ha : a.length = 2 ^ logn) :
    iterPasses (twiddles (2 ^ logn) omega) logn 2 (2 ^ logn / 2) a
      = recursive_butterfly (twiddles (2 ^ logn) omega) logn 1 a
    ∧ ∀ lt1 lt2 : ℕ, cpu_fft lt1 omega logn a = cpu_fft lt2 omega logn a := by
  have hhalf : 2 ^ logn / 2 = 2 ^ (logn - 1) * 1 := by
    cases logn with
    | zero => omega
    | succ m =>
      rw [pow_succ, Nat.mul_div_cancel _ (by norm_num), Nat.mul_one, Nat.add_sub_cancel]
  have hpath : ∀ (tw : List F) (b : List G), b.length = 2 ^ logn →
      iterPasses tw logn 2 (2 ^ logn / 2) b = recursive_butterfly tw logn 1 b := by
    intro tw b hb
    rw [hhalf]
    exact iter_eq_rec tw logn 1 b hk hb
  refine ⟨hpath _ a ha, ?_⟩
  intro lt1 lt2
  rw [cpu_fft, cpu_fft]
  rw [ha]
  have hsw : (swapPass logn a).length = 2 ^ logn := by
    rw [swapPass_length, ha]
  split_ifs with h1 h2 h3
  · rfl
  · exact hpath _ _ hsw
  · exact (hpath _ _ hsw).symm
  · rfl

/-- C3 witness: `log_n = 1`, `a = [1, 2]` over `ZMod 5`, `omega = 4` (an
element of order `2`). -/
theorem fft_path_equivalence_witness :
    (1 ≤ 1 ∧ ([(1 : ZMod 5), 2] : List (ZMod 5)).length = 2 ^ 1)
    ∧ (iterPasses (twiddles (2 ^ 1) (4 : ZMod 5)) 1 2 (2 ^ 1 / 2) [(1 : ZMod 5), 2]
        = recursive_butterfly (twiddles (2 ^ 1) (4 : ZMod 5)) 1 1 [(1 : ZMod 5), 2]
      ∧ ∀ lt1 lt2 : ℕ, cpu_fft lt1 (4 : ZMod 5) 1 [(1 : ZMod 5), 2]
          = cpu_fft lt2 (4 : ZMod 5) 1 [(1 : ZMod 5), 2]) :=
  ⟨⟨le_rfl, by decide⟩, fft_path_equivalence 4 1 le_rfl [(1 : ZMod 5), 2] (by decide)⟩

end FFTPaths

/-! ### FFT: the bit-reversal permutation and the DFT -/

/-- The even-index elements of a list. -/
def evens {α : Type} : List α → List α
  | [] => []
  | [x] => [x]
  | x :: _ :: t => x :: evens t

/-- The odd-index elements of a list. -/
def odds {α : Type} : List α → List α
  | [] => []
  | [_] => []
  | _ :: y :: t => y :: odds t

/-- The permutation the swap loop implements: entry `i` is
`a[bitreverse(i, logn)]`. -/
def bitrevPerm {G : Type} [AddCommGroup G] (logn : ℕ) (a : List G) : List G :=
  (List.range (2 ^ logn)).map (fun i => a.getD (bitreverse i logn) 0)

section BitRev

theorem bitrevAux_acc : ∀ (l n r : ℕ), bitrevAux l n r = r * 2 ^ l + bitrevAux l n 0 := by
  intro l
  induction l with
  | zero => intro n r; simp [bitrevAux]
  | succ l ih =>
    intro n r
    rw [bitrevAux, bitrevAux, ih (n / 2) (2 * r + n % 2), ih (n / 2) (2 * 0 + n % 2)]
    ring

theorem bitreverse_zero_l (n : ℕ) : bitreverse n 0 = 0 := rfl

theorem bitreverse_succ (n l : ℕ) :
    bitreverse n (l + 1) = n % 2 * 2 ^ l + bitreverse (n / 2) l := by
  rw [bitreverse, bitrevAux, bitrevAux_acc l (n / 2) (2 * 0 + n % 2), bitreverse]
  ring_nf

theorem bitreverse_lt : ∀ (l n : ℕ), bitreverse n l < 2 ^ l := by
  intro l
  induction l with
  | zero => intro n; rw [bitreverse_zero_l]; norm_num
  | succ l ih =>
    intro n
    rw [bitreverse_succ, pow_succ]
    have h1 : n % 2 ≤ 1 := by omega
    have h2 := ih (n / 2)
    have : n % 2 * 2 ^ l ≤ 2 ^ l := by
      calc n % 2 * 2 ^ l ≤ 1 * 2 ^ l := Nat.mul_le_mul_right _ h1
        _ = 2 ^ l := Nat.one_mul _
    omega

/-- Peeling the HIGH bit: reversing `l+1` bits of `2^l · b + m` (with
`b ≤ 1`, `m < 2^l`) puts `b` at the bottom. -/
theorem bitreverse_high : ∀ (l m b : ℕ), m < 2 ^ l → b ≤ 1 →
    bitreverse (2 ^ l * b + m) (l + 1) = 2 * bitreverse m l + b := by
  intro l
  induction l with
  | zero =>
    intro m b hm hb
    interval_cases m
    interval_cases b <;> rfl
  | succ l ih =>
    intro m b hm hb
    rw [bitreverse_succ]
    have h2 : (2 : ℕ) ^ (l + 1) * b = 2 * (2 ^ l * b) := by ring
    have hmod : (2 ^ (l + 1) * b + m) % 2 = m % 2 := by
      rw [h2]
      omega
    have hdiv : (2 ^ (l + 1) * b + m) / 2 = 2 ^ l * b + m / 2 := by
      rw [h2]
      omega
    rw [hmod, hdiv, ih (m / 2) b (by rw [pow_succ] at hm; omega) hb,
      bitreverse_succ m l]
    ring

theorem bitreverse_involution : ∀ (l n : ℕ), n < 2 ^ l →
    bitreverse (bitreverse n l) l = n := by
  intro l
  induction l with
  | zero =>
    intro n hn
    interval_cases n
    rfl
  | succ l ih =>
    intro n hn
    rw [bitreverse_succ n l]
    have hrlt : bitreverse (n / 2) l < 2 ^ l := bitreverse_lt l (n / 2)
    have hb : n % 2 ≤ 1 := by omega
    have h := bitreverse_high l (bitreverse (n / 2) l) (n % 2) hrlt hb
    rw [show (2 : ℕ) ^ l * (n % 2) = n % 2 * 2 ^ l by ring] at h
    rw [h, ih (n / 2) (by rw [pow_succ] at hn; omega)]
    omega

theorem bitreverse_double : ∀ (l n : ℕ), n < 2 ^ l →
    bitreverse n (l + 1) = 2 * bitreverse n l := by
  intro l
  induction l with
  | zero =>
    intro n hn
    interval_cases n
    rfl
  | succ l ih =>
    intro n hn
    rw [bitreverse_succ n (l + 1), ih (n / 2) (by rw [pow_succ] at hn; omega),
      bitreverse_succ n l]
    ring

theorem evens_getD {G : Type} [AddCommGroup G] :
    ∀ (a : List G) (m : ℕ), (evens a).getD m 0 = a.getD (2 * m) 0 := by
  intro a
  induction a using evens.induct with
  | case1 => intro m; rfl
  | case2 x =>
    intro m
    cases m with
    | zero => rfl
    | succ m =>
      rw [evens]
      rw [List.getD_cons_succ]
      show (([] : List G).getD m 0) = ([] : List G).getD (2 * (m + 1) - 1) 0
      rfl
  | case3 x y t ih =>
    intro m
    cases m with
    | zero => rfl
    | succ m =>
      rw [evens, List.getD_cons_succ, ih m]
      rw [show 2 * (m + 1) = (2 * m + 1) + 1 by ring, List.getD_cons_succ,
        List.getD_cons_succ]

theorem odds_getD {G : Type} [AddCommGroup G] :
    ∀ (a : List G) (m : ℕ), (odds a).getD m 0 = a.getD (2 * m + 1) 0 := by
  intro a
  induction a using odds.induct with
  | case1 => intro m; rfl
  | case2 x =>
    intro m
    rw [odds]
    show (([] : List G).getD m 0) = [x].getD (2 * m + 1) 0
    rw [show 2 * m + 1 = m + (m + 1) from by ring]
    cases m with
    | zero => rfl
    | succ m => rfl
  | case3 x y t ih =>
    intro m
    cases m with
    | zero => rfl
    | succ m =>
      rw [odds, List.getD_cons_succ, ih m]
      rw [show 2 * (m + 1) + 1 = (2 * m + 1 + 1) + 1 by ring, List.getD_cons_succ,
        List.getD_cons_succ]

theorem evens_length {α : Type} : ∀ (a : List α), (evens a).length = (a.length + 1) / 2 := by
  intro a
  induction a using evens.induct with
  | case1 => simp [evens]
  | case2 x => simp [evens]
  | case3 x y t ih =>
    rw [evens, List.length_cons, ih]
    simp only [List.length_cons]
    omega

theorem odds_length {α : Type} : ∀ (a : List α), (odds a).length = a.length / 2 := by
  intro a
  induction a using odds.induct with
  | case1 => simp [odds]
  | case2 x => simp [odds]
  | case3 x y t ih =>
    rw [odds, List.length_cons, ih]
    simp only [List.length_cons]
    omega

theorem getD_set {G : Type} [AddCommGroup G] (b : List G) (j i : ℕ) (x : G)
    (hi : i < b.length) :
    (b.set j x).getD i 0 = if j = i then x else b.getD i 0 := by
  rw [List.getD_eq_getElem _ _ (by rw [List.length_set]; exact hi), List.getElem_set]
  split
  · rfl
  · rw [List.getD_eq_getElem _ _ hi]

theorem swapFold_spec {G : Type} [AddCommGroup G] (logn : ℕ) (a : List G)
    (ha : a.length = 2 ^ logn) :
    ∀ (m : ℕ), m ≤ 2 ^ logn →
      ((List.range m).foldl (swapStep logn) a).length = 2 ^ logn
      ∧ ∀ i, i < 2 ^ logn →
          ((List.range m).foldl (swapStep logn) a).getD i 0
            = if min i (bitreverse i logn) < m then a.getD (bitreverse i logn) 0
              else a.getD i 0 := by
  intro m
  induction m with
  | zero =>
    intro _
    refine ⟨by rw [List.range_zero, List.foldl_nil, ha], ?_⟩
    intro i _
    rw [List.range_zero, List.foldl_nil, if_neg (by omega)]
  | succ m ih =>
    intro hm
    obtain ⟨ihlen, ihval⟩ := ih (by omega)
    rw [List.range_succ, List.foldl_append, List.foldl_cons, List.foldl_nil]
    have hmlt : m < 2 ^ logn := by omega
    have hrm : bitreverse m logn < 2 ^ logn := bitreverse_lt logn m
    have hinv : ∀ i, i < 2 ^ logn → bitreverse (bitreverse i logn) logn = i :=
      fun i hi => bitreverse_involution logn i hi
    refine ⟨by rw [swapStep_length, ihlen], ?_⟩
    intro i hi
    rw [swapStep]
    set b := List.foldl (swapStep logn) a (List.range m) with hbdef
    have hblen : b.length = 2 ^ logn := ihlen
    split
    · -- the loop swaps positions m and bitreverse m
      rename_i hswap
      by_cases hirm : i = bitreverse m logn
      · have h1 : ((b.set m (b.getD (bitreverse m logn) 0)).set (bitreverse m logn)
            (b.getD m 0)).getD i 0 = b.getD m 0 := by
          rw [getD_set _ _ _ _ (by rw [List.length_set, hblen]; exact hi),
            if_pos hirm.symm]
        rw [h1, ihval m hmlt, if_neg (by omega), hirm, hinv m hmlt,
          if_pos (by omega)]
      · by_cases him : i = m
        · have h1 : ((b.set m (b.getD (bitreverse m logn) 0)).set (bitreverse m logn)
              (b.getD m 0)).getD i 0 = b.getD (bitreverse m logn) 0 := by
            rw [getD_set _ _ _ _ (by rw [List.length_set, hblen]; exact hi),
              if_neg (fun h => hirm h.symm),
              getD_set _ _ _ _ (by rw [hblen]; exact hi), if_pos him.symm]
          rw [h1, ihval (bitreverse m logn) hrm,
            if_neg (by rw [hinv m hmlt]; omega), him, if_pos (by omega)]
        · have h1 : ((b.set m (b.getD (bitreverse m logn) 0)).set (bitreverse m logn)
              (b.getD m 0)).getD i 0 = b.getD i 0 := by
            rw [getD_set _ _ _ _ (by rw [List.length_set, hblen]; exact hi),
              if_neg (fun h => hirm h.symm),
              getD_set _ _ _ _ (by rw [hblen]; exact hi), if_neg (fun h => him h.symm)]
          rw [h1, ihval i hi]
          have hrevne : bitreverse i logn ≠ m := by
            intro h
            apply hirm
            rw [← h, hinv i hi]
          by_cases hcond : min i (bitreverse i logn) < m
          · rw [if_pos hcond, if_pos (by omega)]
          · rw [if_neg hcond, if_neg (by omega)]
    · -- no swap: bitreverse m ≤ m
      rename_i hnoswap
      push_neg at hnoswap
      rw [ihval i hi]
      by_cases him : i = m
      · rw [him]
        rcases Nat.lt_or_ge (bitreverse m logn) m with hlt | hge
        · rw [if_pos (by omega), if_pos (by omega)]
        · have heq : bitreverse m logn = m := by omega
          rw [heq]
          split_ifs <;> rfl
      · by_cases hirm : i = bitreverse m logn
        · have hmi : bitreverse i logn = m := by rw [hirm, hinv m hmlt]
          have hine : i ≠ m := him
          have hilt : i < m := by
            rw [hirm] at hine ⊢
            omega
          rw [hmi, if_pos (by omega), if_pos (by omega)]
        · have hrevne : bitreverse i logn ≠ m := by
            intro h
            apply hirm
            rw [← h, hinv i hi]
          by_cases hcond : min i (bitreverse i logn) < m
          · rw [if_pos hcond, if_pos (by omega)]
          · rw [if_neg hcond, if_neg (by omega)]

theorem swapPass_eq_bitrevPerm {G : Type} [AddCommGroup G] (logn : ℕ) (a : List G)
    (ha : a.length = 2 ^ logn) :
    swapPass logn a = bitrevPerm logn a := by
  obtain ⟨hlen, hval⟩ := swapFold_spec logn a ha (2 ^ logn) le_rfl
  rw [swapPass, ha]
  apply List.ext_getElem
  · rw [hlen, bitrevPerm, List.length_map, List.length_range]
  · intro i h1 h2
    have hi : i < 2 ^ logn := by rw [hlen] at h1; exact h1
    rw [← List.getD_eq_getElem _ 0 h1, ← List.getD_eq_getElem _ 0 h2,
      hval i hi, if_pos (by have := Nat.min_le_left i (bitreverse i logn); omega)]
    show a.getD (bitreverse i logn) 0
        = (List.map (fun i => a.getD (bitreverse i logn) 0) (List.range (2 ^ logn))).getD i 0
    have h2m : i < (List.map (fun i => a.getD (bitreverse i logn) 0)
        (List.range (2 ^ logn))).length := by
      rw [List.length_map, List.length_range]
      exact hi
    rw [List.getD_eq_getElem _ 0 h2m, List.getElem_map, List.getElem_range]

theorem bitrevPerm_succ {G : Type} [AddCommGroup G] (l : ℕ) (a : List G) :
    bitrevPerm (l + 1) a = bitrevPerm l (evens a) ++ bitrevPerm l (odds a) := by
  rw [bitrevPerm, bitrevPerm, bitrevPerm]
  rw [show (2 : ℕ) ^ (l + 1) = 2 ^ l + 2 ^ l by rw [pow_succ]; ring]
  rw [List.range_add, List.map_append, List.map_map]
  congr 1
  · apply List.map_congr_left
    intro i hi
    rw [List.mem_range] at hi
    rw [evens_getD, ← bitreverse_double l i hi]
  · apply List.map_congr_left
    intro i hi
    rw [List.mem_range] at hi
    show a.getD (bitreverse (2 ^ l + i) (l + 1)) 0 = (odds a).getD (bitreverse i l) 0
    rw [odds_getD]
    have h := bitreverse_high l i 1 hi (by norm_num)
    rw [show (2 : ℕ) ^ l + i = 2 ^ l * 1 + i by ring, h]

end BitRev

/-! ### FFT: correctness of the butterfly network against the DFT, and the
round trip with the inverse root -/

section DFT

variable {F G : Type} [Field F] [AddCommGroup G] [Module F G]

theorem bitrevPerm_length (logn : ℕ) (a : List G) :
    (bitrevPerm logn a).length = 2 ^ logn := by
  rw [bitrevPerm, List.length_map, List.length_range]

theorem twiddles_getD (n : ℕ) (omega : F) (j : ℕ) (hj : j < n / 2) :
    (twiddles n omega).getD j 0 = omega ^ j := by
  have h : j < ((List.range (n / 2)).map (fun i => omega ^ i)).length := by
    rw [List.length_map, List.length_range]
    exact hj
  rw [twiddles, List.getD_eq_getElem _ 0 h, List.getElem_map, List.getElem_range]

theorem dft_length (ρ : F) (a : List G) : (dft ρ a).length = a.length := by
  rw [dft, List.length_map, List.length_range]

theorem dft_getD (ρ : F) (a : List G) (i : ℕ) (hi : i < a.length) :
    (dft ρ a).getD i 0 = ∑ j ∈ Finset.range a.length, ρ ^ (i * j) • a.getD j 0 := by
  have h : i < (dft ρ a).length := by rw [dft_length]; exact hi
  rw [dft, List.getD_eq_getElem _ 0 (by rw [← dft] at *; exact h), List.getElem_map,
    List.getElem_range]

theorem sum_range_even_odd (f : ℕ → G) :
    ∀ n : ℕ, ∑ j ∈ Finset.range (2 * n), f j
      = (∑ j ∈ Finset.range n, f (2 * j)) + ∑ j ∈ Finset.range n, f (2 * j + 1) := by
  intro n
  induction n with
  | zero => simp
  | succ n ih =>
    rw [show 2 * (n + 1) = 2 * n + 1 + 1 from by ring, Finset.sum_range_succ,
      Finset.sum_range_succ, ih, Finset.sum_range_succ, Finset.sum_range_succ]
    abel

theorem combine_eq_map (tw : List F) (s : ℕ) (ρ : F) (m : ℕ) (l r : List G)
    (hl : l.length = m) (hr : r.length = m)
    (htw : ∀ i, i < m → i ≠ 0 → tw.getD (i * s) 0 = ρ ^ i) :
    combine tw s l r
      = (List.range m).map (fun i => l.getD i 0 + ρ ^ i • r.getD i 0)
        ++ (List.range m).map (fun i => l.getD i 0 - ρ ^ i • r.getD i 0) := by
  have hts : List.map (fun p => if p.1 = 0 then p.2 else tw.getD (p.1 * s) 0 • p.2) r.enum
      = List.map (fun i => ρ ^ i • r.getD i 0) (List.range m) := by
    apply List.ext_getElem
    · rw [List.length_map, List.enum_length, hr, List.length_map, List.length_range]
    · intro i h1 h2
      have him : i < m := by rw [List.length_map, List.length_range] at h2; exact h2
      have hir : i < r.length := by rw [hr]; exact him
      simp only [List.getElem_map, List.getElem_enum, List.getElem_range]
      rw [List.getD_eq_getElem r 0 hir]
      by_cases hi0 : i = 0
      · subst hi0
        rw [if_pos rfl, pow_zero, one_smul]
      · rw [if_neg hi0, htw i him hi0]
  simp only [combine]
  rw [hts]
  congr 1
  · apply List.ext_getElem
    · rw [List.length_zipWith, hl, List.length_map, List.length_range, List.length_map,
        List.length_range, min_self]
    · intro i h1 h2
      have him : i < m := by rw [List.length_map, List.length_range] at h2; exact h2
      have hil : i < l.length := by rw [hl]; exact him
      simp only [List.getElem_zipWith, List.getElem_map, List.getElem_range]
      rw [← List.getD_eq_getElem l 0 hil]
  · apply List.ext_getElem
    · rw [List.length_zipWith, hl, List.length_map, List.length_range, List.length_map,
        List.length_range, min_self]
    · intro i h1 h2
      have him : i < m := by rw [List.length_map, List.length_range] at h2; exact h2
      have hil : i < l.length := by rw [hl]; exact him
      simp only [List.getElem_zipWith, List.getElem_map, List.getElem_range]
      rw [← List.getD_eq_getElem l 0 hil]

/-- The recursive butterfly on the bit-reversed input computes the DFT at
`ω^s`: the inductive heart of FFT correctness.  `s` is the twiddle stride
(`1` at the top call), `n` the full transform size fixing the twiddle
table, and the parity condition `ω^(s·2^(k-1)) = -1` is what survives of
primitivity after halving. -/
theorem recursive_butterfly_dft (n : ℕ) (ω : F) :
    ∀ (k s : ℕ) (a : List G), 1 ≤ s → s * 2 ^ k = n → a.length = 2 ^ k →
      (1 ≤ k → ω ^ (s * 2 ^ (k - 1)) = -1) →
      recursive_butterfly (twiddles n ω) k s (bitrevPerm k a) = dft (ω ^ s) a := by
  intro k
  induction k with
  | zero =>
    intro s a hs hsn ha hroot
    rw [recursive_butterfly, bitrevPerm, dft, ha, pow_zero]
    refine List.map_congr_left (fun i hi => ?_)
    rw [List.mem_range] at hi
    have h0 : i = 0 := by omega
    subst h0
    rw [bitreverse_zero_l, Finset.sum_range_one]
    norm_num
  | succ k ih =>
    cases k with
    | zero =>
      intro s a hs hsn ha hroot
      have hρ : ω ^ s = -1 := by
        have h := hroot le_rfl
        simpa using h
      have hsum2 : ∀ f : ℕ → G, ∑ j ∈ Finset.range 2, f j = f 0 + f 1 := by
        intro f
        rw [show (2 : ℕ) = 0 + 1 + 1 from rfl, Finset.sum_range_succ, Finset.sum_range_succ,
          Finset.sum_range_zero, zero_add]
      have hperm : bitrevPerm 1 a = [a.getD 0 0, a.getD 1 0] := by
        rw [bitrevPerm, show List.range (2 ^ 1) = [0, 1] from rfl, List.map_cons,
          List.map_cons, List.map_nil, show bitreverse 0 1 = 0 from rfl,
          show bitreverse 1 1 = 1 from rfl]
      rw [hperm, recursive_butterfly, dft, ha, show (2 : ℕ) ^ 1 = 2 from by norm_num,
        show List.range 2 = [0, 1] from rfl]
      norm_num [hsum2, hρ, sub_eq_add_neg]
    | succ k =>
      intro s a hs hsn ha hroot
      rw [show k + 1 + 1 = k + 2 from rfl] at ha hsn hroot ⊢
      have hroot2 : ω ^ (s * 2 ^ (k + 1)) = -1 := by
        have h := hroot (by omega)
        rwa [show k + 2 - 1 = k + 1 from rfl] at h
      have hρm : (ω ^ s) ^ 2 ^ (k + 1) = -1 := by
        rw [← pow_mul]
        exact hroot2
      have hevlen : (evens a).length = 2 ^ (k + 1) := by
        rw [evens_length, ha, pow_succ]
        omega
      have hodlen : (odds a).length = 2 ^ (k + 1) := by
        rw [odds_length, ha, pow_succ]
        omega
      have hlE : (bitrevPerm (k + 1) (evens a)).length = 2 ^ (k + 1) :=
        bitrevPerm_length (k + 1) (evens a)
      have hsplit : bitrevPerm (k + 2) a
          = bitrevPerm (k + 1) (evens a) ++ bitrevPerm (k + 1) (odds a) :=
        bitrevPerm_succ (k + 1) a
      have hXhalf : (bitrevPerm (k + 1) (evens a) ++ bitrevPerm (k + 1) (odds a)).length / 2
          = 2 ^ (k + 1) := by
        rw [List.length_append, hlE, bitrevPerm_length]
        omega
      rw [hsplit, recursive_butterfly, hXhalf, List.take_left' hlE, List.drop_left' hlE]
      have hrootHalf : ω ^ (s * 2 * 2 ^ (k + 1 - 1)) = -1 := by
        rw [show s * 2 * 2 ^ (k + 1 - 1) = s * 2 ^ (k + 1) from by
          rw [show k + 1 - 1 = k from rfl]; ring]
        exact hroot2
      rw [ih (s * 2) (evens a) (by omega) (by rw [← hsn]; ring) hevlen (fun _ => hrootHalf),
        ih (s * 2) (odds a) (by omega) (by rw [← hsn]; ring) hodlen (fun _ => hrootHalf)]
      -- the two half-size DFT entries, as sums over the even and odd positions
      have hLd : ∀ i, i < 2 ^ (k + 1) →
          (dft (ω ^ (s * 2)) (evens a)).getD i 0
            = ∑ j ∈ Finset.range (2 ^ (k + 1)),
                (ω ^ (s * 2)) ^ (i * j) • a.getD (2 * j) 0 := by
        intro i hi
        rw [dft_getD _ _ i (by rw [hevlen]; exact hi), hevlen]
        exact Finset.sum_congr rfl (fun j _ => by rw [evens_getD])
      have hRd : ∀ i, i < 2 ^ (k + 1) →
          (dft (ω ^ (s * 2)) (odds a)).getD i 0
            = ∑ j ∈ Finset.range (2 ^ (k + 1)),
                (ω ^ (s * 2)) ^ (i * j) • a.getD (2 * j + 1) 0 := by
        intro i hi
        rw [dft_getD _ _ i (by rw [hodlen]; exact hi), hodlen]
        exact Finset.sum_congr rfl (fun j _ => by rw [odds_getD])
      -- entries of the full DFT, split into even and odd input positions
      have hgeven : ∀ i, i < 2 ^ (k + 1) →
          (∑ j ∈ Finset.range (2 ^ (k + 1) + 2 ^ (k + 1)), (ω ^ s) ^ (i * j) • a.getD j 0)
            = (dft (ω ^ (s * 2)) (evens a)).getD i 0
              + (ω ^ s) ^ i • (dft (ω ^ (s * 2)) (odds a)).getD i 0 := by
        intro i hi
        rw [hLd i hi, hRd i hi]
        calc (∑ j ∈ Finset.range (2 ^ (k + 1) + 2 ^ (k + 1)), (ω ^ s) ^ (i * j) • a.getD j 0)
            = ∑ j ∈ Finset.range (2 * 2 ^ (k + 1)), (ω ^ s) ^ (i * j) • a.getD j 0 := by
              rw [show 2 * 2 ^ (k + 1) = 2 ^ (k + 1) + 2 ^ (k + 1) from by ring]
          _ = (∑ j ∈ Finset.range (2 ^ (k + 1)), (ω ^ s) ^ (i * (2 * j)) • a.getD (2 * j) 0)
              + ∑ j ∈ Finset.range (2 ^ (k + 1)),
                  (ω ^ s) ^ (i * (2 * j + 1)) • a.getD (2 * j + 1) 0 :=
              sum_range_even_odd _ _
          _ = (∑ j ∈ Finset.range (2 ^ (k + 1)), (ω ^ (s * 2)) ^ (i * j) • a.getD (2 * j) 0)
              + (ω ^ s) ^ i • ∑ j ∈ Finset.range (2 ^ (k + 1)),
                  (ω ^ (s * 2)) ^ (i * j) • a.getD (2 * j + 1) 0 := by
              congr 1
              · refine Finset.sum_congr rfl (fun j _ => ?_)
                rw [← pow_mul, ← pow_mul, show s * (i * (2 * j)) = s * 2 * (i * j) from by ring]
              · rw [Finset.smul_sum]
                refine Finset.sum_congr rfl (fun j _ => ?_)
                rw [smul_smul, ← pow_mul, ← pow_mul, ← pow_mul, ← pow_add,
                  show s * (i * (2 * j + 1)) = s * i + s * 2 * (i * j) from by ring]
      have hgodd : ∀ i, i < 2 ^ (k + 1) →
          (∑ j ∈ Finset.range (2 ^ (k + 1) + 2 ^ (k + 1)),
              (ω ^ s) ^ ((2 ^ (k + 1) + i) * j) • a.getD j 0)
            = (dft (ω ^ (s * 2)) (evens a)).getD i 0
              - (ω ^ s) ^ i • (dft (ω ^ (s * 2)) (odds a)).getD i 0 := by
        intro i hi
        rw [hLd i hi, hRd i hi, sub_eq_add_neg]
        calc (∑ j ∈ Finset.range (2 ^ (k + 1) + 2 ^ (k + 1)),
                (ω ^ s) ^ ((2 ^ (k + 1) + i) * j) • a.getD j 0)
            = ∑ j ∈ Finset.range (2 * 2 ^ (k + 1)),
                (ω ^ s) ^ ((2 ^ (k + 1) + i) * j) • a.getD j 0 := by
              rw [show 2 * 2 ^ (k + 1) = 2 ^ (k + 1) + 2 ^ (k + 1) from by ring]
          _ = (∑ j ∈ Finset.range (2 ^ (k + 1)),
                (ω ^ s) ^ ((2 ^ (k + 1) + i) * (2 * j)) • a.getD (2 * j) 0)
              + ∑ j ∈ Finset.range (2 ^ (k + 1)),
                  (ω ^ s) ^ ((2 ^ (k + 1) + i) * (2 * j + 1)) • a.getD (2 * j + 1) 0 :=
              sum_range_even_odd _ _
          _ = (∑ j ∈ Finset.range (2 ^ (k + 1)), (ω ^ (s * 2)) ^ (i * j) • a.getD (2 * j) 0)
              + -((ω ^ s) ^ i • ∑ j ∈ Finset.range (2 ^ (k + 1)),
                  (ω ^ (s * 2)) ^ (i * j) • a.getD (2 * j + 1) 0) := by
              congr 1
              · refine Finset.sum_congr rfl (fun j _ => ?_)
                rw [show (2 ^ (k + 1) + i) * (2 * j) = 2 ^ (k + 1) * (2 * j) + i * (2 * j)
                    from by ring,
                  pow_add, pow_mul, hρm, Even.neg_one_pow ⟨j, by ring⟩, one_mul,
                  ← pow_mul, ← pow_mul, show s * (i * (2 * j)) = s * 2 * (i * j) from by ring]
              · rw [Finset.smul_sum, ← Finset.sum_neg_distrib]
                refine Finset.sum_congr rfl (fun j _ => ?_)
                rw [show (2 ^ (k + 1) + i) * (2 * j + 1)
                    = 2 ^ (k + 1) * (2 * j) + 2 ^ (k + 1) + i * (2 * j + 1) from by ring,
                  pow_add, pow_add, pow_mul, hρm, Even.neg_one_pow ⟨j, by ring⟩, one_mul,
                  neg_one_mul, neg_smul, smul_smul, ← pow_mul, ← pow_mul, ← pow_mul,
                  ← pow_add, show s * i + s * 2 * (i * j) = s * (i * (2 * j + 1)) from by ring]
      rw [combine_eq_map (twiddles n ω) s (ω ^ s) (2 ^ (k + 1))
          (dft (ω ^ (s * 2)) (evens a)) (dft (ω ^ (s * 2)) (odds a))
          (by rw [dft_length, hevlen]) (by rw [dft_length, hodlen]) ?htw]
      case htw =>
        intro i hi hi0
        have hn2 : n / 2 = s * 2 ^ (k + 1) := by
          have h : n = s * 2 ^ (k + 1) * 2 := by rw [← hsn]; ring
          omega
        have his : i * s < n / 2 := by
          rw [hn2, mul_comm s (2 ^ (k + 1))]
          exact mul_lt_mul_of_pos_right hi (by omega)
        rw [twiddles_getD n ω (i * s) his, mul_comm i s, pow_mul]
      conv_rhs => rw [dft, ha]
      rw [show (2 : ℕ) ^ (k + 2) = 2 ^ (k + 1) + 2 ^ (k + 1) from by rw [pow_succ]; ring,
        List.range_add, List.map_append, List.map_map]
      congr 1
      · refine List.map_congr_left (fun i hi => ?_)
        rw [List.mem_range] at hi
        exact (hgeven i hi).symm
      · refine List.map_congr_left (fun i hi => ?_)
        rw [List.mem_range] at hi
        simp only [Function.comp_apply]
        exact (hgodd i hi).symm

/-- Both `cpu_fft` code paths compute the DFT at `ω` once `ω^(2^(logn-1)) = -1`
(for `logn ≥ 1`). -/
theorem cpu_fft_eq_dft (lt logn : ℕ) (ω : F) (a : List G)
    (hk : 1 ≤ logn) (ha : a.length = 2 ^ logn)
    (hroot : ω ^ 2 ^ (logn - 1) = -1) :
    cpu_fft lt ω logn a = dft ω a := by
  have hswp : swapPass logn a = bitrevPerm logn a := swapPass_eq_bitrevPerm logn a ha
  have hrb : recursive_butterfly (twiddles (2 ^ logn) ω) logn 1 (bitrevPerm logn a)
      = dft (ω ^ 1) a :=
    recursive_butterfly_dft (2 ^ logn) ω logn 1 a le_rfl (one_mul _) ha
      (fun _ => by rw [one_mul]; exact hroot)
  rw [pow_one] at hrb
  have hhalf : 2 ^ logn / 2 = 2 ^ (logn - 1) * 1 := by
    cases logn with
    | zero => omega
    | succ m =>
      rw [pow_succ, Nat.mul_div_cancel _ (by norm_num), Nat.mul_one, Nat.add_sub_cancel]
  rw [cpu_fft, ha]
  split_ifs with h
  · rw [hhalf, hswp, iter_eq_rec (twiddles (2 ^ logn) ω) logn 1 _ hk
      (bitrevPerm_length logn a)]
    exact hrb
  · rw [hswp]
    exact hrb

/-- Applying the DFT at `ω` and then at `ω⁻¹` multiplies every entry by `N`,
when `ω` has multiplicative order exactly `N`. -/
theorem dft_dft_inv (ω : F) (N : ℕ) (a : List G) (ha : a.length = N)
    (hω : ω ^ N = 1) (hprim : ∀ m, m < N → 0 < m → ω ^ m ≠ 1) :
    dft ω⁻¹ (dft ω a) = a.map (fun x => N • x) := by
  rcases Nat.eq_zero_or_pos N with hN | hN
  · subst hN
    rw [List.length_eq_zero.mp ha]
    rfl
  have hω0 : ω ≠ 0 := by
    intro h
    rw [h, zero_pow hN.ne'] at hω
    exact zero_ne_one hω
  have hinj : ∀ i l : ℕ, i < N → l < N → ω ^ i = ω ^ l → i = l := by
    have key : ∀ i l : ℕ, i ≤ l → l < N → ω ^ i = ω ^ l → i = l := by
      intro i l hil hlN he
      by_contra hne
      have hd : 0 < l - i := by omega
      have hmul : ω ^ i * ω ^ (l - i) = ω ^ i * 1 := by
        rw [mul_one, ← pow_add, show i + (l - i) = l from by omega]
        exact he.symm
      exact hprim (l - i) (by omega) hd (mul_left_cancel₀ (pow_ne_zero i hω0) hmul)
    intro i l hi hl he
    rcases le_total i l with h | h
    · exact key i l h hl he
    · exact (key l i h hi he.symm).symm
  have hlen1 : (dft ω a).length = N := by rw [dft_length, ha]
  apply List.ext_getElem
  · rw [dft_length, hlen1, List.length_map, ha]
  · intro i h1 h2
    have hi : i < N := by rw [List.length_map, ha] at h2; exact h2
    have hmap : (a.map (fun x => N • x)).getD i 0 = N • a.getD i 0 := by
      rw [List.getD_eq_getElem _ 0 (by rw [List.length_map, ha]; exact hi),
        List.getElem_map, List.getD_eq_getElem a 0 (by rw [ha]; exact hi)]
    rw [← List.getD_eq_getElem _ 0 h1, ← List.getD_eq_getElem _ 0 h2, hmap]
    calc (dft ω⁻¹ (dft ω a)).getD i 0
        = ∑ j ∈ Finset.range N, ω⁻¹ ^ (i * j) • (dft ω a).getD j 0 := by
          rw [dft_getD ω⁻¹ (dft ω a) i (by rw [hlen1]; exact hi), hlen1]
      _ = ∑ j ∈ Finset.range N, ∑ l ∈ Finset.range N,
            (ω⁻¹ ^ (i * j) * ω ^ (j * l)) • a.getD l 0 := by
          refine Finset.sum_congr rfl (fun j hj => ?_)
          rw [dft_getD ω a j (by rw [ha]; exact List.mem_range.mp hj), ha, Finset.smul_sum]
          exact Finset.sum_congr rfl (fun l _ => by rw [smul_smul])
      _ = ∑ l ∈ Finset.range N, (∑ j ∈ Finset.range N, (ω⁻¹ ^ i * ω ^ l) ^ j) • a.getD l 0 := by
          rw [Finset.sum_comm]
          refine Finset.sum_congr rfl (fun l _ => ?_)
          rw [Finset.sum_smul]
          refine Finset.sum_congr rfl (fun j _ => ?_)
          rw [mul_pow, ← pow_mul, ← pow_mul, mul_comm j l]
      _ = ∑ l ∈ Finset.range N, (if l = i then (N : F) else 0) • a.getD l 0 := by
          refine Finset.sum_congr rfl (fun l hl => ?_)
          have hlN : l < N := List.mem_range.mp hl
          by_cases hli : l = i
          · rw [if_pos hli, hli]
            have hγ : ω⁻¹ ^ i * ω ^ i = 1 := by
              rw [inv_pow, inv_mul_cancel₀ (pow_ne_zero i hω0)]
            rw [hγ, show (∑ j ∈ Finset.range N, (1 : F) ^ j) = (N : F) from by simp]
          · rw [if_neg hli, zero_smul]
            have hγN : (ω⁻¹ ^ i * ω ^ l) ^ N = 1 := by
              rw [mul_pow, ← pow_mul, ← pow_mul, mul_comm i N, mul_comm l N, pow_mul,
                pow_mul, inv_pow, hω, inv_one, one_pow, one_pow, one_mul]
            have hγ1 : ω⁻¹ ^ i * ω ^ l ≠ 1 := by
              intro hγ
              rw [inv_pow] at hγ
              exact hli (hinj l i hlN hi
                ((inv_mul_eq_one₀ (pow_ne_zero i hω0)).mp hγ).symm)
            have hgm := geom_sum_mul (ω⁻¹ ^ i * ω ^ l) N
            rw [hγN, sub_self] at hgm
            rcases mul_eq_zero.mp hgm with h0 | h0
            · rw [h0, zero_smul]
            · exact absurd (sub_eq_zero.mp h0) hγ1
      _ = N • a.getD i 0 := by
          rw [Finset.sum_eq_single_of_mem i (Finset.mem_range.mpr hi)
            (fun b _ hb => by rw [if_neg hb, zero_smul]), if_pos rfl,
            Nat.cast_smul_eq_nsmul]

/-- C2: FFT round trip.  For every `log_n`, every array `a` of length
`2^log_n` and every `omega` of multiplicative order exactly `2^log_n`
(`omega^(2^log_n) = 1` and no smaller positive power is `1`), running
`cpu_fft` with `omega`, then `cpu_fft` with `omega⁻¹`, then scaling every
element by the field inverse of `2^log_n`, returns exactly `a` — for any
thread settings on the two calls. -/
theorem cpu_fft_roundtrip (lt1 lt2 logn : ℕ) (ω : F) (a : List G)
    (ha : a.length = 2 ^ logn)
    (hω : ω ^ 2 ^ logn = 1)
    (hprim : ∀ m, m < 2 ^ logn → 0 < m → ω ^ m ≠ 1) :
    (cpu_fft lt2 ω⁻¹ logn (cpu_fft lt1 ω logn a)).map
      (fun g => ((2 ^ logn : ℕ) : F)⁻¹ • g) = a := by
  rcases Nat.eq_zero_or_pos logn with h0 | hpos
  · subst h0
    obtain ⟨x, rfl⟩ := List.length_eq_one.mp ha
    have h1 : ∀ (lt : ℕ) (ρ : F), cpu_fft lt ρ 0 [x] = [x] := by
      intro lt ρ
      rw [cpu_fft]
      split_ifs with h
      · rw [iterPasses]
        rfl
      · omega
    rw [h1, h1]
    norm_num
  · have hω0 : ω ≠ 0 := by
      intro h
      rw [h, zero_pow (by positivity : (2 : ℕ) ^ logn ≠ 0)] at hω
      exact zero_ne_one hω
    have hhalflt : 2 ^ (logn - 1) < 2 ^ logn :=
      Nat.pow_lt_pow_right (by norm_num) (by omega)
    have hroot : ω ^ 2 ^ (logn - 1) = -1 := by
      have hsq : ω ^ 2 ^ (logn - 1) * ω ^ 2 ^ (logn - 1) = 1 := by
        rw [← pow_add, show 2 ^ (logn - 1) + 2 ^ (logn - 1) = 2 ^ logn from by
          cases logn with
          | zero => omega
          | succ m => rw [Nat.add_sub_cancel, pow_succ]; ring]
        exact hω
      rcases mul_self_eq_one_iff.mp hsq with h1 | h1
      · exact absurd h1 (hprim _ hhalflt (by positivity))
      · exact h1
    have h2F : ((2 ^ logn : ℕ) : F) ≠ 0 := by
      have hne : (-1 : F) ≠ 1 := by
        intro h
        exact hprim (2 ^ (logn - 1)) hhalflt (by positivity) (by rw [hroot, h])
      have h2 : (2 : F) ≠ 0 := by
        intro h2
        apply hne
        have hadd : (1 : F) + 1 = 0 := by rw [one_add_one_eq_two]; exact h2
        exact neg_eq_of_add_eq_zero_left hadd
      rw [Nat.cast_pow]
      exact pow_ne_zero _ (by exact_mod_cast h2)
    have hrootinv : ω⁻¹ ^ 2 ^ (logn - 1) = -1 := by
      rw [inv_pow, hroot]
      norm_num
    rw [cpu_fft_eq_dft lt1 logn ω a hpos ha hroot,
      cpu_fft_eq_dft lt2 logn ω⁻¹ (dft ω a) hpos (by rw [dft_length, ha]) hrootinv,
      dft_dft_inv ω (2 ^ logn) a ha hω hprim, List.map_map]
    have hid : ∀ x : G, ((2 ^ logn : ℕ) : F)⁻¹ • ((2 ^ logn : ℕ) • x) = x := by
      intro x
      rw [← Nat.cast_smul_eq_nsmul F, smul_smul, inv_mul_cancel₀ h2F, one_smul]
    rw [show ((fun g => ((2 ^ logn : ℕ) : F)⁻¹ • g) ∘ fun x : G => (2 ^ logn : ℕ) • x) = id
      from funext (fun x => hid x), List.map_id]

/-- C2 witness: over `ZMod 5` with `log_n = 1`, `omega = 4` has order exactly
`2 = 2^1`, and the round trip recovers `[1, 2]`. -/
theorem cpu_fft_roundtrip_witness :
    (([(1 : ZMod 5), 2] : List (ZMod 5)).length = 2 ^ 1
      ∧ (4 : ZMod 5) ^ 2 ^ 1 = 1
      ∧ (∀ m, m < 2 ^ 1 → 0 < m → (4 : ZMod 5) ^ m ≠ 1))
    ∧ (cpu_fft 0 (4 : ZMod 5)⁻¹ 1 (cpu_fft 3 (4 : ZMod 5) 1 [(1 : ZMod 5), 2])).map
        (fun g => ((2 ^ 1 : ℕ) : ZMod 5)⁻¹ • g) = [(1 : ZMod 5), 2] :=
  ⟨⟨by decide, by decide, by decide⟩,
    cpu_fft_roundtrip 3 0 1 4 [(1 : ZMod 5), 2] (by decide) (by decide) (by decide)⟩

end DFT

/-! ### `arithmetic.rs::lagrange_interpolate`

The source asserts `points.len() == evals.len()`, special-cases a single
point to the constant polynomial `vec![evals[0]]`, and otherwise builds for
each `j` the vector of denominators `x_j - x_k` over `k ≠ j` (in index
order), batch-inverts them all (`ff::BatchInvert`: nonzero entries become
inverses, zeros are skipped — Lean's `0⁻¹ = 0` convention coincides), grows
the basis polynomial `tmp` from `[1]` by one linear factor per pair
`(x_k, denom)` with the in-place update
`product[i] = tmp[i] * (-denom * x_k) + tmp[i-1] * denom`, and accumulates
`final_poly[i] += tmp[i] * eval_j` over the zip of the basis with the
running result. -/

def filteredPoints {F : Type} [Field F] (points : List F) (j : ℕ) : List F :=
  (points.enum.filter (fun p => decide (p.1 ≠ j))).map Prod.snd

def denoms {F : Type} [Field F] (points : List F) : List (List F) :=
  points.enum.map (fun q => (filteredPoints points q.1).map (fun xk => q.2 - xk))

def batch_invert {F : Type} [Field F] (l : List F) : List F :=
  l.map (fun x => x⁻¹)

def interpStep {F : Type} [Field F] (xk denom : F) (tmp : List F) : List F :=
  List.zipWith (fun a b => a * (-denom * xk) + b * denom) (tmp ++ [0]) (0 :: tmp)

def interpBasis {F : Type} [Field F] (points : List F) (j : ℕ) (ds : List F) : List F :=
  ((filteredPoints points j).zip ds).foldl (fun tmp p => interpStep p.1 p.2 tmp) [1]

def lagrange_interpolate {F : Type} [Field F] (points evals : List F) : List F :=
  if points.length = 1 then [evals.getD 0 0]
  else
    ((((denoms points).map batch_invert).zip evals).enum).foldl
      (fun final q =>
        List.zipWith (fun f c => f + c * q.2.2) final (interpBasis points q.1 q.2.1)
          ++ final.drop (interpBasis points q.1 q.2.1).length)
      (List.replicate points.length 0)

/-- The `assert_eq!(points.len(), evals.len())` at the function's entry,
modelled as a guard that yields `none` exactly when the assert would panic,
before any interpolation work. -/
def lagrange_interpolate_checked {F : Type} [Field F] (points evals : List F) :
    Option (List F) :=
  if points.length = evals.length then some (lagrange_interpolate points evals) else none

section Lagrange

variable {F : Type} [Field F]

theorem enumFrom_filter_map {α : Type} (j : ℕ) :
    ∀ (l : List α) (s : ℕ),
      ((List.enumFrom s l).filter (fun p => decide (p.1 ≠ j))).map Prod.snd
        = if s ≤ j then l.take (j - s) ++ l.drop (j - s + 1) else l := by
  intro l
  induction l with
  | nil =>
    intro s
    rw [List.enumFrom_nil, List.filter_nil, List.map_nil]
    split_ifs <;> simp
  | cons a t ih =>
    intro s
    rw [List.enumFrom_cons, List.filter_cons]
    by_cases hsj : s = j
    · subst hsj
      rw [if_neg (by simp), ih (s + 1), if_neg (by omega), if_pos le_rfl, Nat.sub_self]
      rw [List.take_zero, List.nil_append, zero_add]
      rfl
    · rw [if_pos (by simp [hsj]), List.map_cons, ih (s + 1)]
      rcases Nat.lt_or_ge j s with h | h
      · rw [if_neg (by omega), if_neg (by omega)]
      · have hs1 : s + 1 ≤ j := by omega
        rw [if_pos hs1, if_pos (by omega)]
        rw [show j - s = (j - (s + 1)) + 1 from by omega, List.take_succ_cons,
          List.drop_succ_cons, List.cons_append]

theorem filteredPoints_eq (points : List F) (j : ℕ) :
    filteredPoints points j = points.take j ++ points.drop (j + 1) := by
  rw [filteredPoints, List.enum, enumFrom_filter_map j points 0, if_pos (Nat.zero_le j),
    Nat.sub_zero]

theorem filteredPoints_length (points : List F) (j : ℕ) (hj : j < points.length) :
    (filteredPoints points j).length = points.length - 1 := by
  rw [filteredPoints_eq, List.length_append, List.length_take, List.length_drop]
  omega

theorem getD_mem_filteredPoints (points : List F) {i j : ℕ} (hi : i < points.length)
    (hij : i ≠ j) : points.getD i 0 ∈ filteredPoints points j := by
  rw [filteredPoints, List.mem_map]
  have hie : i < points.enum.length := by rw [List.enum_length]; exact hi
  have hmem : ((i, points.getD i 0) : ℕ × F) ∈ points.enum := by
    rw [List.getD_eq_getElem _ 0 hi, ← List.getElem_enum points i]
    exact List.getElem_mem hie
  exact ⟨(i, points.getD i 0), List.mem_filter.mpr ⟨hmem, by simp [hij]⟩, rfl⟩

theorem getD_not_mem_filteredPoints (points : List F) (j : ℕ) (hj : j < points.length)
    (hnd : points.Nodup) : points.getD j 0 ∉ filteredPoints points j := by
  rw [filteredPoints_eq, List.getD_eq_getElem _ 0 hj]
  intro hmem
  have hdec : points.take j ++ points.get ⟨j, hj⟩ :: points.drop (j + 1) = points := by
    rw [List.get_eq_getElem, ← List.drop_eq_getElem_cons hj, List.take_append_drop]
  rw [← hdec] at hnd
  rcases List.mem_append.mp hmem with h | h
  · exact List.disjoint_of_nodup_append hnd h (List.mem_cons_self _ _)
  · have h2 := (List.nodup_append.mp hnd).2.1
    rw [List.nodup_cons] at h2
    exact h2.1 h

theorem interpStep_eq (xk d : F) (tmp : List F) :
    interpStep xk d tmp = (mulXsub xk tmp).map (fun c => d * c) := by
  rw [interpStep, mulXsub, List.map_zipWith, List.zipWith_comm]
  congr 1
  funext b a
  ring

theorem foldl_horner_map (d y : F) :
    ∀ (l : List F) (acc : F),
      (l.map (fun c => d * c)).foldl (fun acc c => acc * y + c) (d * acc)
        = d * l.foldl (fun acc c => acc * y + c) acc := by
  intro l
  induction l with
  | nil => intro acc; rfl
  | cons c t ih =>
    intro acc
    rw [List.map_cons, List.foldl_cons, List.foldl_cons,
      show d * acc * y + d * c = d * (acc * y + c) from by ring]
    exact ih (acc * y + c)

theorem evaluate_map_mul (d y : F) (p : List F) :
    evaluate (p.map (fun c => d * c)) y = d * evaluate p y := by
  rw [evaluate, evaluate, ← List.map_reverse]
  have h := foldl_horner_map d y p.reverse 0
  rw [mul_zero] at h
  exact h

theorem evaluate_interpStep (xk d y : F) (tmp : List F) :
    evaluate (interpStep xk d tmp) y = d * ((y - xk) * evaluate tmp y) := by
  rw [interpStep_eq, evaluate_map_mul, evaluate_mulXsub]

theorem evaluate_interp_fold (y : F) :
    ∀ (ps : List (F × F)) (t : List F),
      evaluate (ps.foldl (fun tmp p => interpStep p.1 p.2 tmp) t) y
        = (ps.map (fun p => p.2 * (y - p.1))).prod * evaluate t y := by
  intro ps
  induction ps with
  | nil => intro t; rw [List.foldl_nil, List.map_nil, List.prod_nil, one_mul]
  | cons p ps ih =>
    intro t
    rw [List.foldl_cons, ih, List.map_cons, List.prod_cons, evaluate_interpStep]
    ring

theorem interpStep_length (xk d : F) (tmp : List F) :
    (interpStep xk d tmp).length = tmp.length + 1 := by
  simp [interpStep]

theorem interp_fold_length :
    ∀ (ps : List (F × F)) (t : List F),
      (ps.foldl (fun tmp p => interpStep p.1 p.2 tmp) t).length = t.length + ps.length := by
  intro ps
  induction ps with
  | nil => intro t; rw [List.foldl_nil, List.length_nil, Nat.add_zero]
  | cons p ps ih =>
    intro t
    rw [List.foldl_cons, ih, interpStep_length, List.length_cons]
    omega

theorem zip_self_map {α β : Type} (f : α → β) :
    ∀ l : List α, l.zip (l.map f) = l.map (fun a => (a, f a)) := by
  intro l
  induction l with
  | nil => rfl
  | cons a t ih => rw [List.map_cons, List.zip_cons_cons, ih, List.map_cons]

theorem evaluate_single_one (y : F) : evaluate [(1 : F)] y = 1 := by
  rw [evaluate_cons, evaluate_nil]
  ring

theorem evaluate_replicate_zero (n : ℕ) (y : F) :
    evaluate (List.replicate n (0 : F)) y = 0 := by
  induction n with
  | zero => rfl
  | succ n ih => rw [List.replicate_succ, evaluate_cons, ih, zero_mul, zero_add]

theorem denoms_getD (points : List F) (j : ℕ) (hj : j < points.length) :
    (denoms points).getD j []
      = (filteredPoints points j).map (fun xk => points.getD j 0 - xk) := by
  have hjd : j < (denoms points).length := by
    rw [denoms, List.length_map, List.enum_length]
    exact hj
  rw [List.getD_eq_getElem _ _ hjd]
  simp only [denoms, List.getElem_map, List.getElem_enum]
  rw [List.getD_eq_getElem _ 0 hj]

theorem invdenoms_getD (points : List F) (j : ℕ) (hj : j < points.length) :
    ((denoms points).map batch_invert).getD j []
      = (filteredPoints points j).map (fun xk => (points.getD j 0 - xk)⁻¹) := by
  have hjd2 : j < (denoms points).length := by
    rw [denoms, List.length_map, List.enum_length]
    exact hj
  have hjd : j < ((denoms points).map batch_invert).length := by
    rw [List.length_map]
    exact hjd2
  rw [List.getD_eq_getElem _ _ hjd, List.getElem_map,
    ← List.getD_eq_getElem (denoms points) [] hjd2, denoms_getD points j hj, batch_invert,
    List.map_map]
  rfl

theorem interpBasis_eval (points : List F) (j : ℕ) (hj : j < points.length) (y : F) :
    evaluate (interpBasis points j (((denoms points).map batch_invert).getD j [])) y
      = ((filteredPoints points j).map
          (fun xk => (points.getD j 0 - xk)⁻¹ * (y - xk))).prod := by
  rw [interpBasis, invdenoms_getD points j hj, zip_self_map, evaluate_interp_fold,
    evaluate_single_one, mul_one, List.map_map]
  rfl

theorem interpBasis_length (points : List F) (j : ℕ) (hj : j < points.length) :
    (interpBasis points j (((denoms points).map batch_invert).getD j [])).length
      = points.length := by
  rw [interpBasis, interp_fold_length, List.length_zip, invdenoms_getD points j hj,
    List.length_map, filteredPoints_length points j hj, min_self, List.length_cons,
    List.length_nil]
  omega

theorem interpBasis_eval_ne (points : List F) (i j : ℕ) (hi : i < points.length)
    (hj : j < points.length) (hij : i ≠ j) :
    evaluate (interpBasis points j (((denoms points).map batch_invert).getD j []))
      (points.getD i 0) = 0 := by
  rw [interpBasis_eval points j hj]
  apply List.prod_eq_zero
  rw [List.mem_map]
  exact ⟨points.getD i 0, getD_mem_filteredPoints points hi hij, by rw [sub_self, mul_zero]⟩

theorem interpBasis_eval_self (points : List F) (j : ℕ) (hj : j < points.length)
    (hnd : points.Nodup) :
    evaluate (interpBasis points j (((denoms points).map batch_invert).getD j []))
      (points.getD j 0) = 1 := by
  rw [interpBasis_eval points j hj]
  apply List.prod_eq_one
  intro z hz
  rw [List.mem_map] at hz
  obtain ⟨xk, hxk, rfl⟩ := hz
  have hne : points.getD j 0 - xk ≠ 0 := by
    rw [sub_ne_zero]
    intro he
    rw [← he] at hxk
    exact getD_not_mem_filteredPoints points j hj hnd hxk
  exact inv_mul_cancel₀ hne

theorem horner_zip_add (e y : F) :
    ∀ (p : List F), ∀ q : List F, p.length = q.length → ∀ (a b : F),
      (List.zipWith (fun f c => f + c * e) p q).foldl (fun acc c => acc * y + c) (a + e * b)
        = p.foldl (fun acc c => acc * y + c) a + e * q.foldl (fun acc c => acc * y + c) b := by
  intro p
  induction p with
  | nil =>
    intro q hq a b
    rw [List.length_nil] at hq
    rw [List.length_eq_zero.mp hq.symm]
    rfl
  | cons c t ih =>
    intro q hq a b
    cases q with
    | nil => simp at hq
    | cons d u =>
      rw [List.zipWith_cons_cons, List.foldl_cons, List.foldl_cons, List.foldl_cons,
        show (a + e * b) * y + (c + d * e) = (a * y + c) + e * (b * y + d) from by ring]
      exact ih u (by simpa using hq) (a * y + c) (b * y + d)

theorem evaluate_add_scaled (e y : F) (p q : List F) (h : p.length = q.length) :
    evaluate (List.zipWith (fun f c => f + c * e) p q) y
      = evaluate p y + e * evaluate q y := by
  induction p generalizing q with
  | nil =>
    rw [List.length_nil] at h
    rw [List.length_eq_zero.mp h.symm]
    show evaluate [] y = evaluate [] y + e * evaluate [] y
    rw [evaluate_nil, mul_zero, add_zero]
  | cons c t ih =>
    cases q with
    | nil => simp at h
    | cons d u =>
      rw [List.zipWith_cons_cons, evaluate_cons, evaluate_cons, evaluate_cons,
        ih u (by simpa using h)]
      ring

theorem range_map_sum_delta (n i : ℕ) (hi : i < n) (g : ℕ → F)
    (hdelta : ∀ j, j < n → j ≠ i → g j = 0) :
    ((List.range n).map g).sum = g i := by
  induction n with
  | zero => omega
  | succ n ih =>
    rw [List.range_succ, List.map_append, List.sum_append, List.map_cons, List.map_nil,
      List.sum_cons, List.sum_nil, add_zero]
    rcases Nat.lt_or_ge i n with h | h
    · rw [hdelta n (by omega) (by omega), add_zero,
        ih h (fun j hj hij => hdelta j (by omega) hij)]
    · have hin : i = n := by omega
      subst hin
      rw [List.sum_eq_zero (fun x hx => by
        obtain ⟨j, hj, rfl⟩ := List.mem_map.mp hx
        rw [List.mem_range] at hj
        exact hdelta j (by omega) (by omega)), zero_add]

theorem final_fold_spec (points : List F) (y : F) :
    ∀ (qs : List (ℕ × (List F × F))) (acc : List F),
      (∀ q ∈ qs, (interpBasis points q.1 q.2.1).length = points.length) →
      acc.length = points.length →
      (qs.foldl (fun final q =>
          List.zipWith (fun f c => f + c * q.2.2) final (interpBasis points q.1 q.2.1)
            ++ final.drop (interpBasis points q.1 q.2.1).length) acc).length = points.length
      ∧ evaluate (qs.foldl (fun final q =>
          List.zipWith (fun f c => f + c * q.2.2) final (interpBasis points q.1 q.2.1)
            ++ final.drop (interpBasis points q.1 q.2.1).length) acc) y
        = evaluate acc y
          + (qs.map (fun q => q.2.2 * evaluate (interpBasis points q.1 q.2.1) y)).sum := by
  intro qs
  induction qs with
  | nil =>
    intro acc hq hacc
    exact ⟨hacc, by rw [List.foldl_nil, List.map_nil, List.sum_nil, add_zero]⟩
  | cons q qs ih =>
    intro acc hq hacc
    have hbq : (interpBasis points q.1 q.2.1).length = points.length :=
      hq q (List.mem_cons_self _ _)
    have hdrop : acc.drop (interpBasis points q.1 q.2.1).length = [] :=
      List.drop_eq_nil_of_le (le_of_eq (by rw [hacc, hbq]))
    have hstep : (List.zipWith (fun f c => f + c * q.2.2) acc
        (interpBasis points q.1 q.2.1)
        ++ acc.drop (interpBasis points q.1 q.2.1).length).length = points.length := by
      rw [hdrop, List.append_nil, List.length_zipWith, hacc, hbq, min_self]
    obtain ⟨ihl, ihe⟩ := ih (List.zipWith (fun f c => f + c * q.2.2) acc
        (interpBasis points q.1 q.2.1) ++ acc.drop (interpBasis points q.1 q.2.1).length)
      (fun r hr => hq r (List.mem_cons_of_mem _ hr)) hstep
    refine ⟨?_, ?_⟩
    · simp only [List.foldl_cons]
      exact ihl
    · simp only [List.foldl_cons]
      rw [ihe, hdrop, List.append_nil,
        evaluate_add_scaled q.2.2 y acc (interpBasis points q.1 q.2.1) (by rw [hacc, hbq]),
        List.map_cons, List.sum_cons]
      ring

/-- C7: on equal-length inputs with pairwise-distinct points,
`lagrange_interpolate` returns a coefficient vector of length
`len(points)` whose polynomial evaluates to `evals[i]` at `points[i]` for
every `i`, and for a single point it is the constant polynomial
`[evals[0]]`. -/
theorem lagrange_interpolate_correct (points evals : List F)
    (hlen : points.length = evals.length) (hnd : points.Nodup) :
    (lagrange_interpolate points evals).length = points.length
    ∧ (∀ i, i < points.length →
        evaluate (lagrange_interpolate points evals) (points.getD i 0)
          = evals.getD i 0)
    ∧ (points.length = 1 → lagrange_interpolate points evals = [evals.getD 0 0]) := by
  by_cases h1 : points.length = 1
  · rw [lagrange_interpolate, if_pos h1]
    refine ⟨by rw [h1, List.length_cons, List.length_nil], ?_, fun _ => rfl⟩
    intro i hi
    rw [h1] at hi
    have h0 : i = 0 := by omega
    subst h0
    rw [evaluate_cons, evaluate_nil, zero_mul, zero_add]
  · rw [lagrange_interpolate, if_neg h1]
    have hIDlen : ((denoms points).map batch_invert).length = points.length := by
      rw [List.length_map, denoms, List.length_map, List.enum_length]
    have hziplen : (((denoms points).map batch_invert).zip evals).length = points.length := by
      rw [List.length_zip, hIDlen, ← hlen, min_self]
    have henum : (((denoms points).map batch_invert).zip evals).enum
        = (List.range points.length).map
            (fun j => (j, (((denoms points).map batch_invert).getD j [], evals.getD j 0))) := by
      apply List.ext_getElem
      · rw [List.enum_length, hziplen, List.length_map, List.length_range]
      · intro k h1 h2
        have hk : k < points.length := by
          rw [List.length_map, List.length_range] at h2
          exact h2
        have hkI : k < ((denoms points).map batch_invert).length := by rw [hIDlen]; exact hk
        have hkE : k < evals.length := by rw [← hlen]; exact hk
        rw [List.getElem_enum, List.getElem_map, List.getElem_range, List.getElem_zip,
          List.getD_eq_getElem _ [] hkI, List.getD_eq_getElem _ 0 hkE]
    have hq : ∀ r ∈ (List.range points.length).map
        (fun j => (j, (((denoms points).map batch_invert).getD j [], evals.getD j 0))),
        (interpBasis points r.1 r.2.1).length = points.length := by
      intro r hrm
      obtain ⟨j, hj, rfl⟩ := List.mem_map.mp hrm
      rw [List.mem_range] at hj
      exact interpBasis_length points j hj
    rw [henum]
    refine ⟨(final_fold_spec points 0 _ _ hq (List.length_replicate _ _)).1, ?_,
      fun hc => absurd hc h1⟩
    intro i hi
    rw [(final_fold_spec points (points.getD i 0) _ _ hq (List.length_replicate _ _)).2,
      evaluate_replicate_zero, zero_add, List.map_map]
    have hdelta : ∀ j, j < points.length → j ≠ i →
        ((fun r => r.2.2 * evaluate (interpBasis points r.1 r.2.1) (points.getD i 0)) ∘
          (fun j => (j, (((denoms points).map batch_invert).getD j [], evals.getD j 0)))) j
          = 0 := by
      intro j hj hij
      simp only [Function.comp_apply]
      rw [interpBasis_eval_ne points i j hi hj (Ne.symm hij), mul_zero]
    rw [range_map_sum_delta points.length i hi _ hdelta]
    simp only [Function.comp_apply]
    rw [interpBasis_eval_self points i hi hnd, mul_one]

/-- C7 witness: two distinct points over `ZMod 7`. -/
theorem lagrange_interpolate_correct_witness :
    (([(1 : ZMod 7), 2] : List (ZMod 7)).length = ([3, 4] : List (ZMod 7)).length
      ∧ ([(1 : ZMod 7), 2] : List (ZMod 7)).Nodup)
    ∧ ((lagrange_interpolate [(1 : ZMod 7), 2] [3, 4]).length
          = ([(1 : ZMod 7), 2] : List (ZMod 7)).length
      ∧ (∀ i, i < ([(1 : ZMod 7), 2] : List (ZMod 7)).length →
          evaluate (lagrange_interpolate [(1 : ZMod 7), 2] [3, 4])
            (([(1 : ZMod 7), 2] : List (ZMod 7)).getD i 0)
            = ([3, 4] : List (ZMod 7)).getD i 0)
      ∧ (([(1 : ZMod 7), 2] : List (ZMod 7)).length = 1 →
          lagrange_interpolate [(1 : ZMod 7), 2] [3, 4]
            = [([3, 4] : List (ZMod 7)).getD 0 0])) :=
  ⟨⟨by decide, by decide⟩,
    lagrange_interpolate_correct [(1 : ZMod 7), 2] [3, 4] (by decide) (by decide)⟩

/-- C10: on a length mismatch `lagrange_interpolate` fails fast at the call
boundary — the `assert_eq!` is the function's first statement, modelled as a
guard that yields `none` (no truncation, no returned vector). -/
theorem lagrange_interpolate_asserts (points evals : List F)
    (hne : points.length ≠ evals.length) :
    lagrange_interpolate_checked points evals = none := by
  rw [lagrange_interpolate_checked, if_neg hne]

/-- C10 witness: two points against one evaluation. -/
theorem lagrange_interpolate_asserts_witness :
    ([(1 : ZMod 7), 2] : List (ZMod 7)).length ≠ ([(3 : ZMod 7)] : List (ZMod 7)).length
    ∧ lagrange_interpolate_checked [(1 : ZMod 7), 2] [(3 : ZMod 7)] = none :=
  ⟨by decide, lagrange_interpolate_asserts [(1 : ZMod 7), 2] [(3 : ZMod 7)] (by decide)⟩

end Lagrange

end Halo2
